import Mathlib

/-!
# Verification of the `numbers` extraction core

A shallow embedding, in Lean 4, of the heuristic number-extraction core of
the `numbers` repository (`patterns.py` and `extract.py`), together with
theorems settling the specification claims about it.

Modelling conventions:
* Python strings are modelled as `List Char` (`Str`); the regex character
  classes `\d`, `\s`, `\w` are modelled over their ASCII portion, which is
  the only portion the patterns and claims exercise.
* Python `float` values are modelled as exact rationals `ℚ`; parsing a
  decimal literal yields the exact decimal value.  Rationals are built with
  `Rat.divInt` and multiplied with `mulNat` (proved equal to `HMul.hMul`)
  so that every definition evaluates by kernel reduction.
* Code that can raise an exception to its caller (the bare `float(...)`
  call in `extract_inline_numbers`) is modelled in the `Option` monad:
  `none` is an escaped exception, `some rs` a normal return.
* Each anchored or searched regular expression is modelled by a scanner
  for the (finite-state) language it denotes; every scanner carries a doc
  comment naming the source pattern it embeds and, where the pattern is
  translated to a deterministic scan, why the scan decides exactly the
  regex's backtracking semantics.
-/

/-- Python strings, modelled as lists of characters. -/
abbrev Str := List Char

/-- Coerce a Lean string literal to the `Str` model. -/
def strOf (s : String) : Str := s.toList

/-- The ASCII portion of Python's `\s` / `str.strip` whitespace class:
space, tab, newline, carriage return, vertical tab, form feed. -/
def isSpaceChar (c : Char) : Bool :=
  c = ' ' || c = '\t' || c = '\n' || c = '\r' || c = '\x0b' || c = '\x0c'

/-- Python's `\d` class (ASCII portion): decimal digits. -/
def isDigitChar (c : Char) : Bool := c.isDigit

/-- The character class `[\d,]` used by the number patterns. -/
def isDigComma (c : Char) : Bool := c.isDigit || c = ','

/-- Python's `\w` class (ASCII portion): letters, digits, underscore. -/
def isWordChar (c : Char) : Bool := c.isAlphanum || c = '_'

/-- Python `str.strip()`: drop whitespace from both ends. -/
def strip (s : Str) : Str :=
  ((s.dropWhile isSpaceChar).reverse.dropWhile isSpaceChar).reverse

/-- Consume one optional occurrence of the character `c`
(the regex `c?` at the current position). -/
def dropOpt (c : Char) (s : Str) : Str :=
  match s with
  | [] => []
  | a :: t => if a = c then t else a :: t

/-- `patterns.MULTIPLIERS`, the single source of truth for scales.  Each
source row `(raw_pattern_str, label, factor)` carries a regex alternation
such as `thousands?|k`; its finite language is stored here as the explicit
list of alternatives, in regex backtracking order (rows in order, and the
greedy `s?` giving the plural form before the singular within a row). -/
def MULTIPLIERS : List (List Str × Str × ℕ) :=
  [ ([strOf "thousands", strOf "thousand", strOf "k"], strOf "Thousand", 1000),
    ([strOf "millions", strOf "million", strOf "m"], strOf "Million", 1000000),
    ([strOf "billions", strOf "billion", strOf "b"], strOf "Billion", 1000000000),
    ([strOf "trillions", strOf "trillion", strOf "t"], strOf "Trillion", 1000000000000) ]

/-- The alternation `_mult_alt` built from all multiplier rows, flattened
to the list of alternative words in regex backtracking order, each paired
with the `(label, factor)` of its row. -/
def MULT_FORMS : List (Str × Str × ℕ) :=
  MULTIPLIERS.flatMap (fun e => e.1.map (fun f => (f, e.2.1, e.2.2)))

/-- `patterns.resolve_multiplier`: strip the text, then case-insensitively
full-match it against the multiplier alternations in row order, returning
the `(label, factor)` of the first row whose language contains it.  The
row languages are pairwise disjoint, so matching against the flattened
alternative list decides the same function. -/
def resolve_multiplier (text : Str) : Option (Str × ℕ) :=
  let t := (strip text).map Char.toLower
  (MULT_FORMS.find? (fun e => decide (e.1 = t))).map (fun e => e.2)

/-- `patterns.NUMBER_PATTERN`, `re.match` (= full match, as the pattern is
anchored on both sides): `^\s*\(?\s*[\d,]+\.?\d*\s*\)?\s*$`.  The adjacent
pieces of the pattern draw on pairwise disjoint character classes
(whitespace, parens, `[\d,]`, `.`, digits), so greedy maximal-munch
scanning decides exactly the language of the backtracking regex. -/
def is_number (s : Str) : Bool :=
  let r0 := s.dropWhile isSpaceChar
  let r1 := dropOpt '(' r0
  let r2 := r1.dropWhile isSpaceChar
  let core := r2.takeWhile isDigComma
  let r3 := r2.dropWhile isDigComma
  if core.isEmpty then false
  else
    let r4 := match r3 with
      | '.' :: t => t.dropWhile isDigitChar
      | _ => r3
    let r5 := r4.dropWhile isSpaceChar
    let r6 := dropOpt ')' r5
    let r7 := r6.dropWhile isSpaceChar
    r7.isEmpty

/-- Numeric value of a digit string (most significant first). -/
def digitsVal (l : Str) : ℕ := l.foldl (fun a c => 10 * a + (c.toNat - 48)) 0

/-- Exponent tail of a Python float literal: empty, or `e`/`E`, an optional
sign, and at least one digit, ending the string.  Returns the signed
exponent. -/
def pyFloatExp (s : Str) : Option ℤ :=
  match s with
  | [] => some 0
  | c :: u =>
    if c = 'e' || c = 'E' then
      let (esgn, u1) : ℤ × Str :=
        match u with
        | [] => (1, [])
        | c2 :: v =>
          if c2 = '+' then (1, v)
          else if c2 = '-' then (-1, v)
          else (1, c2 :: v)
      let ed := u1.takeWhile isDigitChar
      let rest := u1.dropWhile isDigitChar
      if ed.isEmpty || !rest.isEmpty then none
      else some (esgn * digitsVal ed)
    else none

/-- Python's `float(str)` constructor on decimal literals, modelled over
exact rationals: optional surrounding whitespace, an optional sign, a
mantissa with at least one digit (`ddd`, `ddd.`, `ddd.ddd` or `.ddd`), and
an optional exponent.  `none` models a raised `ValueError`.  The special
forms `inf`/`nan` and digit-group underscores accepted by Python are not
modelled; no input reaching this function in the repository uses them. -/
def pyFloat (s : Str) : Option ℚ :=
  let t := strip s
  let (sgn, t1) : ℤ × Str :=
    match t with
    | [] => (1, [])
    | c :: r =>
      if c = '+' then (1, r)
      else if c = '-' then (-1, r)
      else (1, c :: r)
  let ip := t1.takeWhile isDigitChar
  let r1 := t1.dropWhile isDigitChar
  let (fp, r2) : Str × Str :=
    match r1 with
    | [] => ([], [])
    | c :: u =>
      if c = '.' then (u.takeWhile isDigitChar, u.dropWhile isDigitChar)
      else ([], c :: u)
  if ip.isEmpty && fp.isEmpty then none
  else
    match pyFloatExp r2 with
    | none => none
    | some e =>
      let num : ℤ := sgn * ((digitsVal ip) * 10 ^ fp.length + digitsVal fp)
      if 0 ≤ e then
        some (Rat.divInt (num * 10 ^ e.toNat) (10 ^ fp.length))
      else
        some (Rat.divInt num (10 ^ fp.length * 10 ^ (-e).toNat))

/-- The characters kept by `parse_number`'s cleaning step: everything but
parentheses and commas. -/
def keepChar (c : Char) : Bool := !(c = '(' || c = ')' || c = ',')

/-- The `cleaned` text of `patterns.parse_number`: parentheses, commas
removed, then stripped. -/
def pn_cleaned (t : Str) : Str :=
  strip (t.filter keepChar)

/-- `patterns.parse_number`: strip; empty fails; negate iff both `(` and
`)` occur; parse the cleaned text as a float, `none` on failure. -/
def parse_number (s : Str) : Option ℚ :=
  let t := strip s
  if t.isEmpty then none
  else
    let negative := t.contains '(' && t.contains ')'
    match pyFloat (pn_cleaned t) with
    | some v => some (if negative then -v else v)
    | none => none

/-- If `form` (lower case) is a case-insensitive prefix of `s`, return the
rest of `s` after it. -/
def ciTake (form : Str) (s : Str) : Option Str :=
  if (s.take form.length).map Char.toLower = form then some (s.drop form.length) else none

/-- The capture group `({_mult_alt})` followed by a continuation test:
try the alternative words in regex backtracking order (`MULT_FORMS`
order) and return the first whose case-insensitive occurrence at the head
of `s` is followed by a suffix satisfying `cont`; yields the captured text
(original case) and the suffix.  This is exactly the backtracking regex:
an alternative is committed only if the rest of the pattern matches. -/
def altMatchCont (cont : Str → Bool) (s : Str) : Option (Str × Str) :=
  MULT_FORMS.findSome? (fun e =>
    match ciTake e.1 s with
    | some rest => if cont rest then some (s.take e.1.length, rest) else none
    | none => none)

/-- Header pattern 1, `\(\w+\s+in\s+({_mult_alt})\)` (case-insensitive),
matched at the head of `s`.  Returns (consumed length, captured group).
`\w+`, `\s+` and the following literals draw on disjoint character
classes, so maximal munch is exactly the backtracking semantics. -/
def hdrMatch1 (s : Str) : Option (ℕ × Str) :=
  match s with
  | '(' :: r =>
    let w := r.takeWhile isWordChar
    let r1 := r.dropWhile isWordChar
    if w.isEmpty then none
    else
      let sp1 := r1.takeWhile isSpaceChar
      let r2 := r1.dropWhile isSpaceChar
      if sp1.isEmpty then none
      else
        match r2 with
        | c1 :: c2 :: r3 =>
          if c1.toLower = 'i' && c2.toLower = 'n' then
            let sp2 := r3.takeWhile isSpaceChar
            let r4 := r3.dropWhile isSpaceChar
            if sp2.isEmpty then none
            else
              match altMatchCont (fun rest => rest.head? = some ')') r4 with
              | some (cap, rest) => some (s.length - rest.tail.length, cap)
              | none => none
          else none
        | _ => none
  | _ => none

/-- Header pattern 2, `\(\s*\$\s+IN\s+({_mult_alt})\)` (case-insensitive),
matched at the head of `s`. -/
def hdrMatch2 (s : Str) : Option (ℕ × Str) :=
  match s with
  | '(' :: r =>
    let r0 := r.dropWhile isSpaceChar
    match r0 with
    | '$' :: r1 =>
      let sp1 := r1.takeWhile isSpaceChar
      let r2 := r1.dropWhile isSpaceChar
      if sp1.isEmpty then none
      else
        match r2 with
        | c1 :: c2 :: r3 =>
          if c1.toLower = 'i' && c2.toLower = 'n' then
            let sp2 := r3.takeWhile isSpaceChar
            let r4 := r3.dropWhile isSpaceChar
            if sp2.isEmpty then none
            else
              match altMatchCont (fun rest => rest.head? = some ')') r4 with
              | some (cap, rest) => some (s.length - rest.tail.length, cap)
              | none => none
          else none
        | _ => none
    | _ => none
  | _ => none

/-- Header pattern 3, `\(\$\s*({_mult_alt})\)` (case-insensitive), matched
at the head of `s`. -/
def hdrMatch3 (s : Str) : Option (ℕ × Str) :=
  match s with
  | '(' :: '$' :: r =>
    let r1 := r.dropWhile isSpaceChar
    match altMatchCont (fun rest => rest.head? = some ')') r1 with
    | some (cap, rest) => some (s.length - rest.tail.length, cap)
    | none => none
  | _ => none

/-- Header pattern 4, `\(\s*\$\s*({_mult_alt})\s*\)` (case-insensitive),
matched at the head of `s`. -/
def hdrMatch4 (s : Str) : Option (ℕ × Str) :=
  match s with
  | '(' :: r =>
    let r0 := r.dropWhile isSpaceChar
    match r0 with
    | '$' :: r1 =>
      let r2 := r1.dropWhile isSpaceChar
      match altMatchCont (fun rest => (rest.dropWhile isSpaceChar).head? = some ')') r2 with
      | some (cap, rest) =>
        let rest2 := rest.dropWhile isSpaceChar
        some (s.length - rest2.tail.length, cap)
      | none => none
    | _ => none
  | _ => none

/-- `patterns.HEADER_UNIT_PATTERNS`, in source order. -/
def HEADER_UNIT_PATTERNS : List (Str → Option (ℕ × Str)) :=
  [hdrMatch1, hdrMatch2, hdrMatch3, hdrMatch4]

/-- `re.search`: try the matcher at every position left to right and
return the first match's captured group. -/
def searchCap (mh : Str → Option (ℕ × Str)) : Str → Option Str
  | [] => (mh []).map (fun x => x.2)
  | c :: t =>
    match mh (c :: t) with
    | some x => some x.2
    | none => searchCap mh t

/-- `re.sub(pattern, "")`: delete every non-overlapping match, scanning
left to right.  Fuel-driven so that it evaluates by kernel reduction; the
fuel is the string length, which suffices because every match of the
header patterns consumes at least one character. -/
def subAllF (mh : Str → Option (ℕ × Str)) : ℕ → Str → Str
  | _, [] => []
  | 0, s => s
  | fuel + 1, c :: t =>
    match mh (c :: t) with
    | some (len, _) =>
      if len = 0 then c :: subAllF mh fuel t
      else subAllF mh fuel ((c :: t).drop len)
    | none => c :: subAllF mh fuel t

/-- `patterns.find_header_multiplier`: search the four header patterns in
order; on the first pattern that matches anywhere, resolve its captured
scale word. -/
def find_header_multiplier (text : Str) : Option (Str × ℕ) :=
  (HEADER_UNIT_PATTERNS.findSome? (fun mh => searchCap mh text)).bind resolve_multiplier

/-- `extract.CONTEXT_WINDOW`. -/
def CONTEXT_WINDOW : ℕ := 30

/-- The optional fraction tail `\.?\d*` of the inline number group, split
greedily: a leading dot takes the following digit run; anything else
contributes nothing.  Returns (fraction part including the dot, rest). -/
def fracSplit (r2 : Str) : Str × Str :=
  match r2 with
  | [] => ([], [])
  | c :: u =>
    if c = '.' then ('.' :: u.takeWhile isDigitChar, u.dropWhile isDigitChar)
    else ([], c :: u)

/-- The `\b` continuation after a scale word, whose last character is a
word character: the boundary holds iff the input ends or the next
character is not a word character. -/
def wordBoundaryCont (rest : Str) : Bool :=
  match rest with
  | [] => true
  | c :: _ => !isWordChar c

/-- `patterns.INLINE_DOLLAR_PATTERN`,
`\$\s*([\d,]+\.?\d*)\s*({_mult_alt})\b` (case-insensitive), matched at the
head of `s`.  Returns (match length, group 1, group 2).  The number group
is maximal munch: any backtracked shorter variant leaves the scan on a
digit, comma or dot, which can start neither `\s*` nor a scale word, so
the deterministic scan decides the backtracking regex exactly.  `\b` after
a scale word (whose last character is a word character) holds iff the next
character is absent or not a word character. -/
def dollarMatchHere (s : Str) : Option (ℕ × Str × Str) :=
  match s with
  | '$' :: r =>
    let r1 := r.dropWhile isSpaceChar
    let d1 := r1.takeWhile isDigComma
    let r2 := r1.dropWhile isDigComma
    if d1.isEmpty then none
    else
      let g1 := d1 ++ (fracSplit r2).1
      let r4 := (fracSplit r2).2.dropWhile isSpaceChar
      match altMatchCont wordBoundaryCont r4 with
      | some (cap, rest) => some (s.length - rest.length, g1, cap)
      | none => none
  | _ => none

/-- `patterns.INLINE_BARE_PATTERN`,
`([\d,]+\.?\d*)\s+({_mult_words})\b` (case-insensitive), matched at the
head of `s`.  In the source, `_mult_words` is built by keeping every
`MULTIPLIERS` pattern string whose `len(pat) > 2`; each row's *whole*
alternation string (`"thousands?|k"`, ..., length 11 or 12) passes that
filter, so `_mult_words` equals `_mult_alt` and the single-letter
abbreviations are still present in this pattern.  Same determinism
argument as `dollarMatchHere`; the separator `\s+` here is mandatory. -/
def bareMatchHere (s : Str) : Option (ℕ × Str × Str) :=
  let d1 := s.takeWhile isDigComma
  let r2 := s.dropWhile isDigComma
  if d1.isEmpty then none
  else
    let g1 := d1 ++ (fracSplit r2).1
    let sp := (fracSplit r2).2.takeWhile isSpaceChar
    let r4 := (fracSplit r2).2.dropWhile isSpaceChar
    if sp.isEmpty then none
    else
      match altMatchCont wordBoundaryCont r4 with
      | some (cap, rest) => some (s.length - rest.length, g1, cap)
      | none => none

/-- `re.finditer`: scan left to right, at each position try the matcher;
on a match emit `(start, end, payload)` and resume at the match's end.
Fuel-driven (fuel = string length) so it kernel-evaluates; both inline
patterns consume at least one character per match, so the fuel suffices
and the zero-length guard is unreachable. -/
def findAllF {α : Type} (mh : Str → Option (ℕ × α)) : ℕ → Str → ℕ → List (ℕ × ℕ × α)
  | _, [], _ => []
  | 0, _, _ => []
  | fuel + 1, c :: t, i =>
    match mh (c :: t) with
    | some (len, a) =>
      if len = 0 then findAllF mh fuel t (i + 1)
      else (i, i + len, a) :: findAllF mh fuel ((c :: t).drop len) (i + len)
    | none => findAllF mh fuel t (i + 1)

/-- All matches of a matcher over a text, with spans. -/
def findAll {α : Type} (mh : Str → Option (ℕ × α)) (s : Str) : List (ℕ × ℕ × α) :=
  findAllF mh s.length s 0

/-- The `source_type` literal of an `ExtractedNumber`. -/
inductive SourceType where
  | table
  | narrative
  | table_narrative
deriving DecidableEq

/-- `extract.ExtractedNumber`. -/
structure ExtractedNumber where
  value : ℚ
  raw : Str
  multiplier_label : Option Str
  multiplier : ℕ
  adjusted_value : ℚ
  row_label : Str
  column : Str
  section' : Option Str
  page : Option ℤ
  source : Option Str
  source_type : SourceType
  context : Option Str
deriving DecidableEq

/-- `value * multiplier`, computed on the `divInt` normal form so that it
kernel-evaluates (`Rat.mul` is `@[irreducible]`); `mulNat_eq` proves it
equal to ordinary multiplication. -/
def mulNat (q : ℚ) (m : ℕ) : ℚ := Rat.divInt (q.num * m) q.den

theorem mulNat_eq (q : ℚ) (m : ℕ) : mulNat q m = q * m := by
  rw [mulNat, Rat.divInt_eq_div]
  push_cast
  conv_rhs => rw [← Rat.num_div_den q]
  ring

/-- `extract._make_result`: build an `ExtractedNumber` with computed
`adjusted_value = value * multiplier`. -/
def make_result (value : ℚ) (raw : Str) (multiplier_label : Option Str)
    (multiplier : ℕ) (row_label : Str) (column : Str)
    (source_type : SourceType) (sec : Option Str) (page : Option ℤ)
    (source : Option Str) (context : Option Str) : ExtractedNumber :=
  { value := value, raw := raw, multiplier_label := multiplier_label,
    multiplier := multiplier, adjusted_value := mulNat value multiplier,
    row_label := row_label, column := column, section' := sec,
    page := page, source := source, source_type := source_type,
    context := context }

/-- The `context` capture of `extract_inline_numbers`: a
`CONTEXT_WINDOW`-character window each side of the match, newlines
replaced by spaces, stripped.  Natural subtraction gives Python's
`max(0, start - CONTEXT_WINDOW)`. -/
def contextOf (text : Str) (start stop : ℕ) : Str :=
  let a := start - CONTEXT_WINDOW
  let b := min text.length (stop + CONTEXT_WINDOW)
  strip (((text.drop a).take (b - a)).map (fun c => if c = '\n' then ' ' else c))

/-- The first loop of `extract.extract_inline_numbers` over the dollar
pattern's matches: skip a match whose scale word does not resolve,
convert the number group with `float` (a failure is a `ValueError` that
escapes, modelled by `none`), record the match's span.  Returns the
records and the spans in match order. -/
def dollarLoop (text : Str) :
    List (ℕ × ℕ × Str × Str) → Option (List ExtractedNumber × List (ℕ × ℕ))
  | [] => some ([], [])
  | (st, en, g1, g2) :: ms =>
    let num_str := g1.filter (fun c => !(c = ','))
    match resolve_multiplier g2 with
    | none => dollarLoop text ms
    | some (label, factor) =>
      match pyFloat num_str with
      | none => none
      | some value =>
        let raw := strip ((text.drop st).take (en - st))
        let ctx := contextOf text st en
        match dollarLoop text ms with
        | none => none
        | some (recs, spans) =>
          some (make_result value raw (some label) factor (strOf "inline")
              (strOf "narrative") .narrative none none none (some ctx) :: recs,
            (st, en) :: spans)

/-- The second loop of `extract.extract_inline_numbers` over the bare
pattern's matches: additionally skip any match whose start lies inside a
span found by the dollar loop. -/
def bareLoop (text : Str) (spans : List (ℕ × ℕ)) :
    List (ℕ × ℕ × Str × Str) → Option (List ExtractedNumber)
  | [] => some []
  | (st, en, g1, g2) :: ms =>
    if spans.any (fun sp => decide (sp.1 ≤ st) && decide (st < sp.2)) then
      bareLoop text spans ms
    else
      let num_str := g1.filter (fun c => !(c = ','))
      match resolve_multiplier g2 with
      | none => bareLoop text spans ms
      | some (label, factor) =>
        match pyFloat num_str with
        | none => none
        | some value =>
          let raw := strip ((text.drop st).take (en - st))
          let ctx := contextOf text st en
          match bareLoop text spans ms with
          | none => none
          | some recs =>
            some (make_result value raw (some label) factor (strOf "inline")
                (strOf "narrative") .narrative none none none (some ctx) :: recs)

/-- `extract.extract_inline_numbers`.  `none` models an exception
escaping to the caller. -/
def extract_inline_numbers (text : Str) : Option (List ExtractedNumber) :=
  match dollarLoop text (findAll dollarMatchHere text) with
  | none => none
  | some (found, spans) =>
    match bareLoop text spans (findAll bareMatchHere text) with
    | none => none
    | some found2 => some (found ++ found2)

/-- `extract.extract_from_text`: run the inline extractor and attach the
provenance fields. -/
def extract_from_text (text : Str) (sec : Option Str) (page : Option ℤ)
    (source : Option Str) : Option (List ExtractedNumber) :=
  (extract_inline_numbers text).map
    (List.map (fun r => { r with section' := sec, page := page, source := source }))

/-- Python truthiness of an optional cell string: present and non-empty. -/
def truthy (c : Option Str) : Bool :=
  match c with
  | some s => !s.isEmpty
  | none => false

/-- `cell.split("\n")[0]`: the text before the first newline. -/
def firstSeg (s : Str) : Str := s.takeWhile (fun c => !(c = '\n'))

/-- Python `str.split("\n")`: split at every newline; the empty string
splits to one empty piece. -/
def splitNl (s : Str) : List Str :=
  s.foldr (fun c acc =>
    match acc with
    | [] => [[c]]
    | h :: t => if c = '\n' then [] :: h :: t else (c :: h) :: t) [[]]

/-- `str.replace("\n", " ")`. -/
def replaceNl (s : Str) : Str := s.map (fun c => if c = '\n' then ' ' else c)

/-- `(row[0] or "").replace("\n", " ").strip() if row else ""`:
the row label of a table row. -/
def rowLabel (row : List (Option Str)) : Str :=
  match row with
  | [] => []
  | c :: _ => strip (replaceNl (c.getD []))

/-- A row contains a cell recognized as numeric data:
`cell and is_number(cell.split("\n")[0])` for some cell. -/
def hasNumCell (row : List (Option Str)) : Bool :=
  row.any (fun c => truthy c && is_number (firstSeg (c.getD [])))

/-- Decimal digits of a natural number, as text (`f"col_{j}"` uses it). -/
def natStr (n : ℕ) : Str := Nat.toDigits 10 n

/-- Forward fill of one padded header row
(`resolve_column_headers`, multi-row case): a cell that is present with
non-blank content leaves the cell unchanged and becomes, newline-replaced
and stripped, the new fill value; any other cell is replaced by the
current fill value. -/
def ffillRow (row : List (Option Str)) : List (Option Str) :=
  (row.foldl (fun p cell =>
    match cell with
    | some s =>
      if !(strip s).isEmpty then (some (strip (replaceNl s)), cell :: p.2)
      else (p.1, p.1 :: p.2)
    | none => (p.1, p.1 :: p.2)) ((none : Option Str), [])).2.reverse

/-- One composite column header (`resolve_column_headers`, multi-row
case): the distinct non-empty stripped values of column `j` across the
filled header rows, joined with `" / "`, or `col_<j>` if none. -/
def colHeader (filled : List (List (Option Str))) (j : ℕ) : Str :=
  let parts := filled.foldl (fun acc frow =>
    let val := strip ((frow.getD j none).getD [])
    if !val.isEmpty && !(acc.contains val) then acc ++ [val] else acc) []
  if parts.isEmpty then strOf "col_" ++ natStr j
  else List.intercalate (strOf " / ") parts

/-- `extract.resolve_column_headers`. -/
def resolve_column_headers (rows : List (List (Option Str))) : Option (List Str) :=
  if rows.isEmpty then none
  else
    let col_count := rows.foldl (fun a r => max a r.length) 0
    match rows.findIdx? hasNumCell with
    | none => none
    | some data_start =>
      if data_start = 0 then none
      else
        match rows.take data_start with
        | [hr] => some (hr.map (fun c => strip (replaceNl (c.getD []))))
        | header_rows =>
          let filled := header_rows.map
            (fun row => ffillRow (row ++ List.replicate (col_count - row.length) none))
          some ((List.range col_count).map (colHeader filled))

/-- The `data_start` loop of `extract.extract_from_table`: the variable
starts at 0 and the loop breaks only once it is positive, so the result is
the first index `i ≥ 1` of a row with numeric data, and 0 when no such row
exists (a numeric row 0 alone never makes the loop break early and leaves
the final value 0). -/
def tableDataStart (rows : List (List (Option Str))) : ℕ :=
  match (rows.drop 1).findIdx? hasNumCell with
  | some k => k + 1
  | none => 0

/-- The body of the data-row loop of `extract.extract_from_table` for one
row: column 0 is the row label; a row label that itself declares a scale
overrides everything for the row; each remaining truthy cell is split at
newlines into sub-values aligned with sub-labels; each sub-value that is a
recognized, parseable number is emitted with the effective scale decided
by: row-level scale, else the caller's default scale if the sub-value
contains a decimal point, else none / factor 1.  Note that `sub_labels`
splits `row_label`, in which newlines were already replaced by spaces, so
it is always the one-element list `[row_label]`. -/
def processRow (headers : List Str) (multiplier_label : Option Str)
    (multiplier : ℕ) (sec : Option Str) (page : Option ℤ)
    (source : Option Str) (row : List (Option Str)) : List ExtractedNumber :=
  let rl := rowLabel row
  let row0txt := (row.headD none).getD []
  let row_mult := find_header_multiplier rl
  (row.drop 1).enum.flatMap (fun ic =>
    match ic.2 with
    | none => []
    | some ctext =>
      if ctext.isEmpty then []
      else
        let col_idx := ic.1 + 1
        let sub_labels := if row0txt.contains '\n' then splitNl rl else [rl]
        let sub_values := splitNl ctext
        sub_values.enum.flatMap (fun vv =>
          let val_text := strip vv.2
          if !is_number val_text then []
          else
            match parse_number val_text with
            | none => []
            | some parsed_val =>
              let col_header := headers.getD col_idx (strOf "col_" ++ natStr col_idx)
              let sub_label :=
                if vv.1 < sub_labels.length then strip (sub_labels.getD vv.1 [])
                else strip (sub_labels.getLastD [])
              let eff : Option Str × ℕ :=
                match row_mult with
                | some lf => (some lf.1, lf.2)
                | none =>
                  if val_text.contains '.' then (multiplier_label, multiplier)
                  else (none, 1)
              [make_result parsed_val val_text eff.1 eff.2 sub_label col_header
                .table sec page source none]))

/-- The trailing cell scan of `extract.extract_from_table` for one cell:
run the inline extractor on the cell text and restamp the records as
`table_narrative`. -/
def cellInlines (sec : Option Str) (page : Option ℤ) (source : Option Str)
    (cell : Option Str) : Option (List ExtractedNumber) :=
  match cell with
  | none => some []
  | some c =>
    if c.isEmpty then some []
    else
      (extract_inline_numbers c).map (List.map (fun r =>
        { r with row_label := strOf "inline", column := strOf "table narrative",
                 source_type := .table_narrative, section' := sec,
                 page := page, source := source }))

/-- The inner loop of the trailing cell scan of
`extract.extract_from_table`: the cells of one row, in order. -/
def scanRowCells (sec : Option Str) (page : Option ℤ) (source : Option Str)
    (acc : List ExtractedNumber) :
    List (Option Str) → Option (List ExtractedNumber)
  | [] => some acc
  | c :: cs =>
    match cellInlines sec page source c with
    | none => none
    | some l => scanRowCells sec page source (acc ++ l) cs

/-- The outer loop of the trailing cell scan of
`extract.extract_from_table`: all rows, in order. -/
def scanRows (sec : Option Str) (page : Option ℤ) (source : Option Str)
    (acc : List ExtractedNumber) :
    List (List (Option Str)) → Option (List ExtractedNumber)
  | [] => some acc
  | row :: rs =>
    match scanRowCells sec page source acc row with
    | none => none
    | some acc2 => scanRows sec page source acc2 rs

/-- `extract.extract_from_table`.  `none` models an exception escaping
from the inline scan of a cell; the data-row pass itself cannot raise
(`parse_number` returns `None` on failure). -/
def extract_from_table (rows : List (List (Option Str)))
    (multiplier_label : Option Str) (multiplier : ℕ) (sec : Option Str)
    (page : Option ℤ) (source : Option Str) : Option (List ExtractedNumber) :=
  match resolve_column_headers rows with
  | none => some []
  | some headers =>
    if headers.isEmpty then some []
    else
      let data_start := tableDataStart rows
      let dataRecs := (rows.drop data_start).flatMap
        (processRow headers multiplier_label multiplier sec page source)
      match scanRows sec page source [] rows with
      | none => none
      | some inlineRecs => some (dataRecs ++ inlineRecs)

/-- Boolean `a ≤ b` on `ℚ` via core's `Rat.blt` (which kernel-evaluates);
`rleb_iff` proves agreement with `≤`. -/
def rleb (a b : ℚ) : Bool := !(Rat.blt b a)

theorem rleb_iff (a b : ℚ) : rleb a b = true ↔ a ≤ b := by
  rw [rleb, Bool.not_eq_true']
  exact Iff.rfl

/-- One span of a text line of a box (input contract of §6): `span["text"]`. -/
structure BoxSpan where
  text : Str
deriving DecidableEq

/-- One text line of a box: `textline["spans"]`. -/
structure TextLine where
  spans : List BoxSpan
deriving DecidableEq

/-- The table payload of a table box: `box["table"]["extract"]`, a grid of
optional cell strings. -/
structure TableData where
  extract : List (List (Option Str))
deriving DecidableEq

/-- One positioned box of a page: classification, vertical position,
text lines (`box.get("textlines") or []` makes an absent list empty) and
optional table payload. -/
structure Box where
  boxclass : Str
  y0 : ℚ
  textlines : List TextLine
  table : Option TableData
deriving DecidableEq

/-- One page of pre-parsed input: `page["page_number"]`, `page["boxes"]`. -/
structure Page where
  page_number : ℤ
  boxes : List Box
deriving DecidableEq

/-- `extract.get_box_text`: all span texts (including empty ones), then
all truthy table cells, joined with single spaces. -/
def get_box_text (box : Box) : Str :=
  let parts1 := box.textlines.flatMap (fun tl => tl.spans.map (fun sp => sp.text))
  let parts2 :=
    match box.table with
    | some t => t.extract.flatMap (fun row => row.filterMap (fun c =>
        match c with
        | some s => if s.isEmpty then none else some s
        | none => none))
    | none => []
  List.intercalate (strOf " ") (parts1 ++ parts2)

/-- `extract.mult_for_y`: the last `(label, factor)` in declaration order
whose position is at or above (`<=`) the query position. -/
def mult_for_y (mult_positions : List (ℚ × Str × ℕ)) (y : ℚ) : Option (Str × ℕ) :=
  mult_positions.foldl (fun r e => if rleb e.1 y then some (e.2.1, e.2.2) else r) none

/-- Stable insertion into a y0-sorted box list: the new element goes after
every element with a strictly smaller or equal position. -/
def insertByY0 (x : Box) : List Box → List Box
  | [] => [x]
  | b :: bs => if Rat.blt x.y0 b.y0 then x :: b :: bs else b :: insertByY0 x bs

/-- Python's stable `sorted(boxes, key=lambda b: b["y0"])`: insertion sort
processing the list left to right keeps the original order of boxes with
equal positions. -/
def sortByY0 (l : List Box) : List Box :=
  l.foldl (fun acc x => insertByY0 x acc) []

/-- The first pass of `extract.extract_from_pages` over a page's sorted
boxes: the scale declarations `(y0, label, factor)` found in non-table
boxes, in box order. -/
def pageMults (boxes : List Box) : List (ℚ × Str × ℕ) :=
  boxes.filterMap (fun b =>
    if b.boxclass = strOf "table" then none
    else
      (find_header_multiplier (get_box_text b)).map (fun lf => (b.y0, lf.1, lf.2)))

/-- The per-page mutable state of `extract.extract_from_pages`:
`mult_positions` (appended to by banner tables), `section_name`, and the
accumulated results. -/
structure PageState where
  mults : List (ℚ × Str × ℕ)
  secName : Option Str
  results : List ExtractedNumber
deriving DecidableEq

/-- The `has_data` check on a table's rows in `extract_from_pages`:
some truthy cell whose first newline segment is a recognized number. -/
def tableHasData (rows : List (List (Option Str))) : Bool :=
  rows.any (fun row => row.any (fun cell =>
    truthy cell && is_number (firstSeg (cell.getD []))))

/-- The `table_text` of `extract_from_pages`: all truthy cells joined
with single spaces. -/
def tableText (rows : List (List (Option Str))) : Str :=
  List.intercalate (strOf " ")
    (rows.flatMap (fun row => row.filterMap (fun c =>
      match c with
      | some s => if s.isEmpty then none else some s
      | none => none)))

/-- The `section-header` step of `extract.extract_from_pages`: update the
section name to the box's text unless the header-unit patterns consume the
whole text (a header that is purely a scale declaration). -/
def sectionUpdate (st : PageState) (box : Box) : PageState :=
  if box.boxclass = strOf "section-header" then
    let text := get_box_text box
    let stripped := HEADER_UNIT_PATTERNS.foldl
      (fun s mh => subAllF mh s.length s) text
    if (find_header_multiplier text).isNone || !(strip stripped).isEmpty then
      { st with secName := some text }
    else st
  else st

/-- The table-box step of `extract.extract_from_pages`: empty rows are
skipped; a table with an embedded scale but no numeric data is a banner
(promote the scale at the box's position, emit nothing); otherwise the
table is extracted under the effective scale: its embedded scale if any,
else the nearest-above declaration, else none with factor 1. -/
def tableBoxStep (source : Str) (pnum : ℤ) (st1 : PageState) (box : Box)
    (rows : List (List (Option Str))) : Option PageState :=
  if rows.isEmpty then some st1
  else
    match find_header_multiplier (tableText rows) with
    | some lf =>
      if !(tableHasData rows) then
        some { st1 with mults := st1.mults ++ [(box.y0, lf.1, lf.2)] }
      else
        match extract_from_table rows (some lf.1) lf.2 st1.secName
            (some pnum) (some source) with
        | none => none
        | some recs => some { st1 with results := st1.results ++ recs }
    | none =>
      let eff : Option Str × ℕ :=
        match mult_for_y st1.mults box.y0 with
        | some lf => (some lf.1, lf.2)
        | none => (none, 1)
      match extract_from_table rows eff.1 eff.2 st1.secName
          (some pnum) (some source) with
      | none => none
      | some recs => some { st1 with results := st1.results ++ recs }

/-- The second pass of `extract.extract_from_pages` for one box: the
section-header update, then the narrative-text or table dispatch. -/
def processBox (source : Str) (pnum : ℤ) (st : PageState) (box : Box) :
    Option PageState :=
  let st1 := sectionUpdate st box
  if box.boxclass = strOf "text" then
    match extract_from_text (get_box_text box) st1.secName (some pnum) (some source) with
    | none => none
    | some recs => some { st1 with results := st1.results ++ recs }
  else
    match box.table with
    | some t =>
      if box.boxclass = strOf "table" then tableBoxStep source pnum st1 box t.extract
      else some st1
    | none => some st1

/-- The second pass of `extract.extract_from_pages` over a page's sorted
boxes, threading the per-page state box by box. -/
def processBoxes (source : Str) (pnum : ℤ) (st : PageState) :
    List Box → Option PageState
  | [] => some st
  | box :: bs =>
    match processBox source pnum st box with
    | none => none
    | some st2 => processBoxes source pnum st2 bs

/-- The per-page body of `extract.extract_from_pages`: sort the boxes by
position, collect the page-level scale declarations, process each box. -/
def processPage (source : Str) (acc : List ExtractedNumber) (page : Page) :
    Option (List ExtractedNumber) :=
  let boxes := sortByY0 page.boxes
  match processBoxes source page.page_number ⟨pageMults boxes, none, acc⟩ boxes with
  | none => none
  | some st => some st.results

/-- The page loop of `extract.extract_from_pages`, threading the
accumulated results. -/
def pagesLoop (source : Str) (acc : List ExtractedNumber) :
    List Page → Option (List ExtractedNumber)
  | [] => some acc
  | page :: rest =>
    match processPage source acc page with
    | none => none
    | some acc2 => pagesLoop source acc2 rest

/-- `extract.extract_from_pages`.  Results accumulate across pages, while
scale declarations and section state are rebuilt from scratch for every
page.  `none` models an escaped exception. -/
def extract_from_pages (pages : List Page) (source : Str) :
    Option (List ExtractedNumber) :=
  pagesLoop source [] pages


/-! ## Concrete example inputs used by witnesses and examples -/

/-- A two-row table whose data cell is the whole number `150`. -/
def exRows150 : List (List (Option Str)) :=
  [[some (strOf "Item"), some (strOf "FY2023")],
   [some (strOf "Budget"), some (strOf "150")]]

/-- The single record extracted from `exRows150` under a Million default:
the decimal heuristic leaves the whole number unscaled. -/
def exRec150 : ExtractedNumber :=
  { value := 150, raw := strOf "150", multiplier_label := none,
    multiplier := 1, adjusted_value := 150, row_label := strOf "Budget",
    column := strOf "FY2023", section' := none, page := none, source := none,
    source_type := .table, context := none }

/-- A text box holding one span of text. -/
def mkTextBox (t : Str) (y : ℚ) (bc : Str) : Box :=
  { boxclass := bc, y0 := y, textlines := [⟨[⟨t⟩]⟩], table := none }

/-- A table box holding a grid. -/
def mkTableBox (rows : List (List (Option Str))) (y : ℚ) : Box :=
  { boxclass := strOf "table", y0 := y, textlines := [], table := some ⟨rows⟩ }

/-- A one-data-row table with the given label and value cell. -/
def mkRows (lbl v : String) : List (List (Option Str)) :=
  [[some (strOf "Item"), some (strOf "FY2023")],
   [some (strOf lbl), some (strOf v)]]

/-- The C3 example page: scale declarations at positions 10 (Thousand)
and 50 (Million); data tables at positions 5, 30 and 60 without embedded
scales, and one at position 30 with an embedded `($B)`. -/
def exC3Pages : List Page :=
  [⟨1, [mkTextBox (strOf "(Dollars in Thousands)") 10 (strOf "text"),
       mkTextBox (strOf "(Dollars in Millions)") 50 (strOf "text"),
       mkTableBox (mkRows "A" "1.5") 5,
       mkTableBox (mkRows "B" "2.5") 30,
       mkTableBox [[some (strOf "Cash ($B)"), some (strOf "FY2023")],
                   [some (strOf "D"), some (strOf "4.5")]] 30,
       mkTableBox (mkRows "C" "3.5") 60]⟩]

/-- The C3 cross-order page: a banner table `($M)` at position 10 (its
scale is promoted during the second pass, hence appended *after* the
first-pass text declarations), a text declaration `(Dollars in
Thousands)` at position 20, and a data table at position 50 with no
embedded scale. -/
def exC3CrossPages : List Page :=
  [⟨1, [mkTableBox [[some (strOf "($M)"), some (strOf "Fund 2024")]] 10,
       mkTextBox (strOf "(Dollars in Thousands)") 20 (strOf "text"),
       mkTableBox (mkRows "E" "5.5") 50]⟩]

/-- The C7 banner example page: a metadata table carrying `($M)` and no
numeric data at position 10, above a data table at position 50. -/
def exC7Pages : List Page :=
  [⟨1, [mkTableBox [[some (strOf "Fund"), some (strOf "Unit"), some (strOf "($M)")]] 10,
       mkTableBox (mkRows "Budget" "99.5") 50]⟩]

/-- The C7 page-boundary example: a Million declaration on page 1, a data
table on page 2. -/
def exC7TwoPages : List Page :=
  [⟨1, [mkTextBox (strOf "(Dollars in Millions)") 10 (strOf "text")]⟩,
   ⟨2, [mkTableBox (mkRows "Budget" "99.5") 50]⟩]

/-- The C9 example table: stacked sub-rows in one cell. -/
def exRowsEquip : List (List (Option Str)) :=
  [[some (strOf "Item"), some (strOf "FY2023")],
   [some (strOf "Equipment\nTotal"), some (strOf "100.5\n200.5")]]

/-- First record extracted from `exRowsEquip` under a Million default. -/
def exRecEquip1 : ExtractedNumber :=
  { value := Rat.divInt 1005 10, raw := strOf "100.5",
    multiplier_label := some (strOf "Million"), multiplier := 1000000,
    adjusted_value := 100500000, row_label := strOf "Equipment Total",
    column := strOf "FY2023", section' := none, page := none, source := none,
    source_type := .table, context := none }

/-- Second record extracted from `exRowsEquip` under a Million default. -/
def exRecEquip2 : ExtractedNumber :=
  { value := Rat.divInt 2005 10, raw := strOf "200.5",
    multiplier_label := some (strOf "Million"), multiplier := 1000000,
    adjusted_value := 200500000, row_label := strOf "Equipment Total",
    column := strOf "FY2023", section' := none, page := none, source := none,
    source_type := .table, context := none }

/-! ## Basic facts about the scale vocabulary -/

theorem resolve_multiplier_factor {t : Str} {lf : Str × ℕ}
    (h : resolve_multiplier t = some lf) : 1 ≤ lf.2 := by
  unfold resolve_multiplier at h
  rw [Option.map_eq_some'] at h
  obtain ⟨e, he, hef⟩ := h
  have hmem := List.mem_of_find?_eq_some he
  have hall : ∀ e ∈ MULT_FORMS, 1 ≤ e.2.2 := by decide
  have h1 := hall e hmem
  rw [← hef]
  exact h1

theorem find_header_multiplier_factor {t : Str} {lf : Str × ℕ}
    (h : find_header_multiplier t = some lf) : 1 ≤ lf.2 := by
  unfold find_header_multiplier at h
  rw [Option.bind_eq_some] at h
  obtain ⟨cap, _, hres⟩ := h
  exact resolve_multiplier_factor hres

/-! ## The record invariant (claim C1) -/

/-- The invariant claimed of every emitted record: the adjusted value is
exactly `value * multiplier`, and the multiplier is at least 1. -/
def goodRec (r : ExtractedNumber) : Prop :=
  r.adjusted_value = r.value * (r.multiplier : ℚ) ∧ 1 ≤ r.multiplier

theorem make_result_good {v : ℚ} {raw : Str} {lbl : Option Str} {m : ℕ}
    {rl col : Str} {st : SourceType} {sec : Option Str} {pg : Option ℤ}
    {src ctx : Option Str} (hm : 1 ≤ m) :
    goodRec (make_result v raw lbl m rl col st sec pg src ctx) := by
  refine ⟨?_, hm⟩
  show mulNat v m = v * (m : ℚ)
  exact mulNat_eq v m

theorem dollarLoop_good {text : Str} :
    ∀ {ms : List (ℕ × ℕ × Str × Str)} {recs : List ExtractedNumber}
      {spans : List (ℕ × ℕ)},
      dollarLoop text ms = some (recs, spans) → ∀ r ∈ recs, goodRec r := by
  intro ms
  induction ms with
  | nil =>
    intro recs spans h r hr
    simp only [dollarLoop] at h
    cases h
    simp at hr
  | cons m ms ih =>
    intro recs spans h r hr
    obtain ⟨st, en, g1, g2⟩ := m
    simp only [dollarLoop] at h
    cases hres : resolve_multiplier g2 with
    | none =>
      rw [hres] at h
      exact ih h r hr
    | some lf =>
      obtain ⟨label, factor⟩ := lf
      rw [hres] at h
      cases hval : pyFloat (g1.filter (fun c => !(c = ','))) with
      | none => rw [hval] at h; cases h
      | some value =>
        rw [hval] at h
        cases hrec : dollarLoop text ms with
        | none => rw [hrec] at h; cases h
        | some p =>
          obtain ⟨recs0, spans0⟩ := p
          rw [hrec] at h
          cases h
          rcases List.mem_cons.mp hr with hEq | hmem
          · subst hEq
            exact make_result_good (resolve_multiplier_factor hres)
          · exact ih hrec r hmem

theorem bareLoop_good {text : Str} {spans : List (ℕ × ℕ)} :
    ∀ {ms : List (ℕ × ℕ × Str × Str)} {recs : List ExtractedNumber},
      bareLoop text spans ms = some recs → ∀ r ∈ recs, goodRec r := by
  intro ms
  induction ms with
  | nil =>
    intro recs h r hr
    simp only [bareLoop] at h
    cases h
    simp at hr
  | cons m ms ih =>
    intro recs h r hr
    obtain ⟨st, en, g1, g2⟩ := m
    simp only [bareLoop] at h
    by_cases hskip : (spans.any (fun sp => decide (sp.1 ≤ st) && decide (st < sp.2))) = true
    · rw [if_pos hskip] at h
      exact ih h r hr
    · rw [if_neg hskip] at h
      cases hres : resolve_multiplier g2 with
      | none =>
        rw [hres] at h
        exact ih h r hr
      | some lf =>
        obtain ⟨label, factor⟩ := lf
        rw [hres] at h
        cases hval : pyFloat (g1.filter (fun c => !(c = ','))) with
        | none => rw [hval] at h; cases h
        | some value =>
          rw [hval] at h
          cases hrec : bareLoop text spans ms with
          | none => rw [hrec] at h; cases h
          | some recs0 =>
            rw [hrec] at h
            cases h
            rcases List.mem_cons.mp hr with hEq | hmem
            · subst hEq
              exact make_result_good (resolve_multiplier_factor hres)
            · exact ih hrec r hmem

theorem extract_inline_numbers_good {text : Str} {recs : List ExtractedNumber}
    (h : extract_inline_numbers text = some recs) : ∀ r ∈ recs, goodRec r := by
  intro r hr
  unfold extract_inline_numbers at h
  cases hd : dollarLoop text (findAll dollarMatchHere text) with
  | none => rw [hd] at h; cases h
  | some p =>
    obtain ⟨found, spans⟩ := p
    rw [hd] at h
    dsimp only at h
    cases hb : bareLoop text spans (findAll bareMatchHere text) with
    | none => rw [hb] at h; cases h
    | some found2 =>
      rw [hb] at h
      cases h
      rcases List.mem_append.mp hr with hmem | hmem
      · exact dollarLoop_good hd r hmem
      · exact bareLoop_good hb r hmem

theorem goodRec_restamp {r : ExtractedNumber} (h : goodRec r)
    {rl col : Str} {st : SourceType} {sec : Option Str} {pg : Option ℤ}
    {src : Option Str} :
    goodRec { r with row_label := rl, column := col, source_type := st,
                     section' := sec, page := pg, source := src } := h

theorem goodRec_provenance {r : ExtractedNumber} (h : goodRec r)
    {sec : Option Str} {pg : Option ℤ} {src : Option Str} :
    goodRec { r with section' := sec, page := pg, source := src } := h

theorem extract_from_text_good {text : Str} {sec : Option Str}
    {pg : Option ℤ} {src : Option Str} {recs : List ExtractedNumber}
    (h : extract_from_text text sec pg src = some recs) :
    ∀ r ∈ recs, goodRec r := by
  intro r hr
  unfold extract_from_text at h
  rw [Option.map_eq_some'] at h
  obtain ⟨l, hl, hmap⟩ := h
  rw [← hmap] at hr
  rw [List.mem_map] at hr
  obtain ⟨r0, hr0, hEq⟩ := hr
  rw [← hEq]
  exact goodRec_provenance (extract_inline_numbers_good hl r0 hr0)

theorem processRow_good {headers : List Str} {ml : Option Str} {mf : ℕ}
    {sec : Option Str} {pg : Option ℤ} {src : Option Str}
    {row : List (Option Str)} (hmf : 1 ≤ mf) :
    ∀ r ∈ processRow headers ml mf sec pg src row, goodRec r := by
  intro r hr
  simp only [processRow, List.mem_flatMap] at hr
  obtain ⟨ic, _, hr⟩ := hr
  split at hr
  · simp at hr
  · split at hr
    · simp at hr
    · simp only [List.mem_flatMap] at hr
      obtain ⟨vv, _, hr⟩ := hr
      split at hr
      · simp at hr
      · split at hr
        · simp at hr
        · simp only [List.mem_singleton] at hr
          subst hr
          cases hrm : find_header_multiplier (rowLabel row) with
          | some lf =>
            dsimp only
            exact make_result_good (find_header_multiplier_factor hrm)
          | none =>
            dsimp only
            by_cases hdot : ((strip vv.2).contains '.') = true
            · rw [if_pos hdot]
              exact make_result_good hmf
            · rw [if_neg hdot]
              exact make_result_good (le_refl 1)

theorem cellInlines_good {sec : Option Str} {pg : Option ℤ} {src : Option Str}
    {cell : Option Str} {recs : List ExtractedNumber}
    (h : cellInlines sec pg src cell = some recs) : ∀ r ∈ recs, goodRec r := by
  intro r hr
  unfold cellInlines at h
  cases cell with
  | none => cases h; simp at hr
  | some c =>
    dsimp only at h
    by_cases hemp : c.isEmpty = true
    · rw [if_pos hemp] at h; cases h; simp at hr
    · rw [if_neg hemp] at h
      rw [Option.map_eq_some'] at h
      obtain ⟨l, hl, hmap⟩ := h
      rw [← hmap, List.mem_map] at hr
      obtain ⟨r0, hr0, hEq⟩ := hr
      rw [← hEq]
      exact goodRec_restamp (extract_inline_numbers_good hl r0 hr0)

theorem scanRowCells_good {sec : Option Str} {pg : Option ℤ} {src : Option Str} :
    ∀ {cells : List (Option Str)} {acc recs : List ExtractedNumber},
      scanRowCells sec pg src acc cells = some recs →
      (∀ r ∈ acc, goodRec r) → ∀ r ∈ recs, goodRec r := by
  intro cells
  induction cells with
  | nil =>
    intro acc recs h hacc r hr
    simp only [scanRowCells] at h
    cases h
    exact hacc r hr
  | cons c cs ih =>
    intro acc recs h hacc r hr
    simp only [scanRowCells] at h
    cases hc : cellInlines sec pg src c with
    | none => rw [hc] at h; cases h
    | some l =>
      rw [hc] at h
      refine ih h ?_ r hr
      intro x hx
      rcases List.mem_append.mp hx with hx | hx
      · exact hacc x hx
      · exact cellInlines_good hc x hx

theorem scanRows_good {sec : Option Str} {pg : Option ℤ} {src : Option Str} :
    ∀ {rows : List (List (Option Str))} {acc recs : List ExtractedNumber},
      scanRows sec pg src acc rows = some recs →
      (∀ r ∈ acc, goodRec r) → ∀ r ∈ recs, goodRec r := by
  intro rows
  induction rows with
  | nil =>
    intro acc recs h hacc r hr
    simp only [scanRows] at h
    cases h
    exact hacc r hr
  | cons row rs ih =>
    intro acc recs h hacc r hr
    simp only [scanRows] at h
    cases hc : scanRowCells sec pg src acc row with
    | none => rw [hc] at h; cases h
    | some acc2 =>
      rw [hc] at h
      exact ih h (scanRowCells_good hc hacc) r hr

theorem extract_from_table_good {rows : List (List (Option Str))}
    {ml : Option Str} {mf : ℕ} {sec : Option Str} {pg : Option ℤ}
    {src : Option Str} {recs : List ExtractedNumber} (hmf : 1 ≤ mf)
    (h : extract_from_table rows ml mf sec pg src = some recs) :
    ∀ r ∈ recs, goodRec r := by
  intro r hr
  unfold extract_from_table at h
  cases hh : resolve_column_headers rows with
  | none => rw [hh] at h; cases h; simp at hr
  | some headers =>
    rw [hh] at h
    dsimp only at h
    by_cases hemp : headers.isEmpty = true
    · rw [if_pos hemp] at h; cases h; simp at hr
    · rw [if_neg hemp] at h
      cases hs : scanRows sec pg src [] rows with
      | none => rw [hs] at h; cases h
      | some inlineRecs =>
        rw [hs] at h
        cases h
        rcases List.mem_append.mp hr with hmem | hmem
        · rw [List.mem_flatMap] at hmem
          obtain ⟨row, _, hmem⟩ := hmem
          exact processRow_good hmf r hmem
        · exact scanRows_good hs (by intro x hx; simp at hx) r hmem

theorem pageMults_factor {boxes : List Box} :
    ∀ e ∈ pageMults boxes, 1 ≤ e.2.2 := by
  intro e he
  unfold pageMults at he
  rw [List.mem_filterMap] at he
  obtain ⟨b, _, hb⟩ := he
  split at hb
  · cases hb
  · rw [Option.map_eq_some'] at hb
    obtain ⟨lf, hlf, hEq⟩ := hb
    rw [← hEq]
    exact find_header_multiplier_factor hlf

theorem mult_for_y_mem_aux {y : ℚ} {lf : Str × ℕ} :
    ∀ {ps : List (ℚ × Str × ℕ)} {r0 : Option (Str × ℕ)},
      ps.foldl (fun r e => if rleb e.1 y then some (e.2.1, e.2.2) else r) r0 = some lf →
      r0 = some lf ∨ ∃ e ∈ ps, lf = e.2 := by
  intro ps
  induction ps with
  | nil => intro r0 h; exact Or.inl h
  | cons e ps ih =>
    intro r0 h
    rw [List.foldl_cons] at h
    rcases ih h with h1 | h1
    · by_cases hc : rleb e.1 y = true
      · rw [if_pos hc] at h1
        cases h1
        exact Or.inr ⟨e, List.mem_cons_self e ps, rfl⟩
      · rw [if_neg hc] at h1
        exact Or.inl h1
    · obtain ⟨e2, he2, hEq⟩ := h1
      exact Or.inr ⟨e2, List.mem_cons_of_mem e he2, hEq⟩

theorem mult_for_y_mem {ps : List (ℚ × Str × ℕ)} {y : ℚ} {lf : Str × ℕ}
    (h : mult_for_y ps y = some lf) : ∃ e ∈ ps, lf = e.2 := by
  rcases mult_for_y_mem_aux h with h1 | h1
  · cases h1
  · exact h1

/-- The state invariant threaded through the page pass: every collected
scale declaration has factor at least 1, and every accumulated record
satisfies `goodRec`. -/
def goodState (st : PageState) : Prop :=
  (∀ e ∈ st.mults, 1 ≤ e.2.2) ∧ (∀ r ∈ st.results, goodRec r)


theorem sectionUpdate_mults (st : PageState) (box : Box) :
    (sectionUpdate st box).mults = st.mults := by
  unfold sectionUpdate
  split
  · dsimp only
    split
    · rfl
    · rfl
  · rfl

theorem sectionUpdate_results (st : PageState) (box : Box) :
    (sectionUpdate st box).results = st.results := by
  unfold sectionUpdate
  split
  · dsimp only
    split
    · rfl
    · rfl
  · rfl

theorem sectionUpdate_good {st : PageState} {box : Box} (hst : goodState st) :
    goodState (sectionUpdate st box) := by
  constructor
  · rw [sectionUpdate_mults]
    exact hst.1
  · rw [sectionUpdate_results]
    exact hst.2

theorem tableBoxStep_good {src : Str} {pnum : ℤ} {st1 st2 : PageState}
    {box : Box} {rows : List (List (Option Str))} (hst : goodState st1)
    (h : tableBoxStep src pnum st1 box rows = some st2) : goodState st2 := by
  unfold tableBoxStep at h
  split at h
  · cases h
    exact hst
  · split at h
    · rename_i lf hlf
      split at h
      · cases h
        refine ⟨?_, hst.2⟩
        intro e he
        rcases List.mem_append.mp he with he | he
        · exact hst.1 e he
        · simp only [List.mem_singleton] at he
          rw [he]
          exact find_header_multiplier_factor hlf
      · cases he : extract_from_table rows (some lf.1) lf.2 st1.secName
            (some pnum) (some src) with
        | none => rw [he] at h; cases h
        | some recs =>
          rw [he] at h
          cases h
          refine ⟨hst.1, ?_⟩
          intro r hr
          rcases List.mem_append.mp hr with hr | hr
          · exact hst.2 r hr
          · exact extract_from_table_good (find_header_multiplier_factor hlf) he r hr
    · dsimp only at h
      cases hm : mult_for_y st1.mults box.y0 with
      | some lf =>
        rw [hm] at h
        dsimp only at h
        have hf : 1 ≤ lf.2 := by
          obtain ⟨e, he, hEq⟩ := mult_for_y_mem hm
          rw [hEq]
          exact hst.1 e he
        cases he : extract_from_table rows (some lf.1) lf.2 st1.secName
            (some pnum) (some src) with
        | none => rw [he] at h; cases h
        | some recs =>
          rw [he] at h
          cases h
          refine ⟨hst.1, ?_⟩
          intro r hr
          rcases List.mem_append.mp hr with hr | hr
          · exact hst.2 r hr
          · exact extract_from_table_good hf he r hr
      | none =>
        rw [hm] at h
        dsimp only at h
        cases he : extract_from_table rows none 1 st1.secName
            (some pnum) (some src) with
        | none => rw [he] at h; cases h
        | some recs =>
          rw [he] at h
          cases h
          refine ⟨hst.1, ?_⟩
          intro r hr
          rcases List.mem_append.mp hr with hr | hr
          · exact hst.2 r hr
          · exact extract_from_table_good (le_refl 1) he r hr

theorem processBox_good {src : Str} {pnum : ℤ} {st st2 : PageState} {box : Box}
    (hst : goodState st) (h : processBox src pnum st box = some st2) :
    goodState st2 := by
  unfold processBox at h
  dsimp only at h
  have hst1 : goodState (sectionUpdate st box) := sectionUpdate_good hst
  split at h
  · cases he : extract_from_text (get_box_text box) (sectionUpdate st box).secName
        (some pnum) (some src) with
    | none => rw [he] at h; cases h
    | some recs =>
      rw [he] at h
      cases h
      refine ⟨hst1.1, ?_⟩
      intro r hr
      rcases List.mem_append.mp hr with hr | hr
      · exact hst1.2 r hr
      · exact extract_from_text_good he r hr
  · split at h
    · split at h
      · exact tableBoxStep_good hst1 h
      · cases h
        exact hst1
    · cases h
      exact hst1

theorem processBoxes_good {src : Str} {pnum : ℤ} :
    ∀ {boxes : List Box} {st st2 : PageState}, goodState st →
      processBoxes src pnum st boxes = some st2 → goodState st2 := by
  intro boxes
  induction boxes with
  | nil =>
    intro st st2 hst h
    simp only [processBoxes] at h
    cases h
    exact hst
  | cons box bs ih =>
    intro st st2 hst h
    simp only [processBoxes] at h
    cases hb : processBox src pnum st box with
    | none => rw [hb] at h; cases h
    | some stm =>
      rw [hb] at h
      exact ih (processBox_good hst hb) h

theorem processPage_good {src : Str} {acc recs : List ExtractedNumber}
    {page : Page} (hacc : ∀ r ∈ acc, goodRec r)
    (h : processPage src acc page = some recs) : ∀ r ∈ recs, goodRec r := by
  unfold processPage at h
  dsimp only at h
  cases hb : processBoxes src page.page_number
      ⟨pageMults (sortByY0 page.boxes), none, acc⟩ (sortByY0 page.boxes) with
  | none => rw [hb] at h; cases h
  | some st =>
    rw [hb] at h
    cases h
    exact (processBoxes_good ⟨pageMults_factor, hacc⟩ hb).2

theorem pagesLoop_good {src : Str} :
    ∀ {pages : List Page} {acc recs : List ExtractedNumber},
      (∀ r ∈ acc, goodRec r) → pagesLoop src acc pages = some recs →
      ∀ r ∈ recs, goodRec r := by
  intro pages
  induction pages with
  | nil =>
    intro acc recs hacc h
    simp only [pagesLoop] at h
    cases h
    exact hacc
  | cons page rest ih =>
    intro acc recs hacc h
    simp only [pagesLoop] at h
    cases hp : processPage src acc page with
    | none => rw [hp] at h; cases h
    | some acc2 =>
      rw [hp] at h
      exact ih (processPage_good hacc hp) h

theorem extract_from_pages_good {pages : List Page} {src : Str}
    {recs : List ExtractedNumber} (h : extract_from_pages pages src = some recs) :
    ∀ r ∈ recs, goodRec r :=
  pagesLoop_good (by intro r hr; simp at hr) h

/-- C1: every `ExtractedNumber` emitted by any core entry point
(`extract_from_pages`, `extract_from_table`, `extract_from_text`, each
returning normally) satisfies `adjusted_value = value * multiplier`
exactly, and, provided any caller-supplied default factor is at least 1,
satisfies `multiplier ≥ 1`. -/
theorem C1_record_invariant :
    (∀ (text : Str) (sec : Option Str) (pg : Option ℤ) (src : Option Str)
       (recs : List ExtractedNumber),
       extract_from_text text sec pg src = some recs →
       ∀ r ∈ recs,
         r.adjusted_value = r.value * (r.multiplier : ℚ) ∧ 1 ≤ r.multiplier) ∧
    (∀ (rows : List (List (Option Str))) (ml : Option Str) (mf : ℕ)
       (sec : Option Str) (pg : Option ℤ) (src : Option Str)
       (recs : List ExtractedNumber), 1 ≤ mf →
       extract_from_table rows ml mf sec pg src = some recs →
       ∀ r ∈ recs,
         r.adjusted_value = r.value * (r.multiplier : ℚ) ∧ 1 ≤ r.multiplier) ∧
    (∀ (pages : List Page) (src : Str) (recs : List ExtractedNumber),
       extract_from_pages pages src = some recs →
       ∀ r ∈ recs,
         r.adjusted_value = r.value * (r.multiplier : ℚ) ∧ 1 ≤ r.multiplier) := by
  refine ⟨?_, ?_, ?_⟩
  · intro text sec pg src recs h r hr
    exact extract_from_text_good h r hr
  · intro rows ml mf sec pg src recs hmf h r hr
    exact extract_from_table_good hmf h r hr
  · intro pages src recs h r hr
    exact extract_from_pages_good h r hr

theorem C1_record_invariant_witness :
    exRec150.adjusted_value = exRec150.value * (exRec150.multiplier : ℚ) ∧
    1 ≤ exRec150.multiplier :=
  C1_record_invariant.2.1 exRows150 (some (strOf "Million")) 1000000
    none none none [exRec150] (by decide) (by decide) exRec150 (by decide)

/-- C4 (code behaviour at the failing input): the source builds
`_mult_words` by keeping each `MULTIPLIERS` pattern string with
`len(pat) > 2`, but every row's *whole* alternation string passes that
filter, so the bare-worded pattern still contains the single-letter
abbreviations.  Hence `"3 m"` emits a bare-worded record whose matched
scale token is the bare letter `m` (resolved as Million), contradicting
the claim; the claim's positive example `"2.0 million"` behaves as
stated. -/
theorem C4_bare_single_letter_match :
    extract_inline_numbers (strOf "3 m") =
      some [{ value := 3, raw := strOf "3 m",
              multiplier_label := some (strOf "Million"),
              multiplier := 1000000, adjusted_value := 3000000,
              row_label := strOf "inline", column := strOf "narrative",
              section' := none, page := none, source := none,
              source_type := .narrative, context := some (strOf "3 m") }] ∧
    (extract_inline_numbers (strOf "2.0 million")).map
        (List.map (fun r => r.raw)) = some [strOf "2.0 million"] := by
  decide

/-- C8 (code behaviour at the failing input): on the input `", million"`
the bare-worded pattern's number group matches the bare comma, the scale
word resolves, and `float("")` raises a `ValueError` that escapes
`extract_inline_numbers` and `extract_from_text` (modelled by `none`),
contradicting the claim that no input is fatal. -/
theorem C8_exception_escapes :
    extract_inline_numbers (strOf ", million") = none ∧
    extract_from_text (strOf ", million") none none none = none := by
  decide

/-- C5 counterexample: the string `","` is accepted by the number check
(the class `[\d,]+` requires no digit) but `parse_number` fails on it,
because stripping the comma leaves `float("")`. -/
theorem C5_counterexample :
    is_number (strOf ",") = true ∧ parse_number (strOf ",") = none := by
  decide

/-- C10 counterexample: `"(-5"` contains exactly one of the two
parenthesis characters, yet the parsed value is returned negative, not
positive: the parenthesis is stripped, no negation is applied, and the
remaining text `-5` parses to `-5`. -/
theorem C10_counterexample :
    parse_number (strOf "(-5") = some (-5) ∧ ((-5 : ℚ) < 0) ∧
    '(' ∈ strOf "(-5" ∧ ¬ ')' ∈ strOf "(-5" := by
  decide

/-- C9 counterexample: for the label cell `"Equipment\nTotal"` with value
cell `"100.5\n200.5"`, both sub-values are emitted with the combined row
label `"Equipment Total"`: the sub-labels are obtained by splitting the
row label *after* newlines were replaced by spaces, not the original
cell content, so no per-index alignment ever happens. -/
theorem C9_counterexample :
    (extract_from_table
        [[some (strOf "Item"), some (strOf "FY2023")],
         [some (strOf "Equipment\nTotal"), some (strOf "100.5\n200.5")]]
        (some (strOf "Million")) 1000000 none none none).map
      (fun l => l.map (fun r => r.row_label)) =
      some [strOf "Equipment Total", strOf "Equipment Total"] ∧
    ¬ strOf "Equipment Total" = strOf "Equipment" := by
  decide

/-- C3 counterexample: on `exC3CrossPages` the data table at position 50
is scaled by Million (the banner declaration promoted at position 10)
although the Thousand text declaration sits at the strictly greater
position 20, which is still at or above the table — the greatest-position
rule of the original claim predicts Thousand.  The second conjunct shows
the lookup itself: on the declaration list in its actual order (text
declarations first, banner promotions appended after) `mult_for_y` keeps
the *last* list entry whose position is `≤ 50`, and the remaining
conjuncts record that the losing Thousand entry also qualifies
(`20 ≤ 50`) and has the strictly greater position (`10 ≤ 20`,
`20 ≠ 10`). -/
theorem C3_counterexample :
    (extract_from_pages exC3CrossPages (strOf "doc.pdf")).map
        (fun l => l.map (fun r => (r.row_label, r.multiplier, r.multiplier_label))) =
      some [(strOf "E", 1000000, some (strOf "Million"))] ∧
    mult_for_y [(20, strOf "Thousand", 1000), (10, strOf "Million", 1000000)] 50 =
      some (strOf "Million", 1000000) ∧
    rleb 20 50 = true ∧ rleb 10 20 = true ∧ ¬ (20 : ℚ) = 10 := by
  decide

/-- C3 (amended): `mult_for_y` returns the projection of the *last*
declaration in declaration-list order whose position is at or above
(`≤`) the query position — not the greatest-position one: the page's
declaration list holds the text-box declarations in position-sorted box
order followed by any banner promotions appended during the second pass,
so list order and position order can disagree.  On a position-sorted
list the last qualifying entry *is* the nearest-above declaration, with
the latest appended winning ties, so the spec's examples hold: with
declarations at 10 (Thousand) and 50 (Million) a lookup at 60 returns
Million, at 30 Thousand, at 5 nothing; and in `extract_from_pages` a
data table's effective scale is its embedded scale if present, else
`mult_for_y` of the declaration list, else none (factor 1), as witnessed
on `exC3Pages`. -/
theorem C3_nearest_above_lookup :
    (∀ (ps : List (ℚ × Str × ℕ)) (y : ℚ),
      mult_for_y ps y =
        ((ps.filter (fun e => rleb e.1 y)).getLast?).map (fun e => e.2)) ∧
    mult_for_y [(10, strOf "Thousand", 1000), (50, strOf "Million", 1000000)] 60 =
      some (strOf "Million", 1000000) ∧
    mult_for_y [(10, strOf "Thousand", 1000), (50, strOf "Million", 1000000)] 30 =
      some (strOf "Thousand", 1000) ∧
    mult_for_y [(10, strOf "Thousand", 1000), (50, strOf "Million", 1000000)] 5 =
      none ∧
    (extract_from_pages exC3Pages (strOf "doc.pdf")).map
        (fun l => l.map (fun r => (r.row_label, r.multiplier))) =
      some [(strOf "A", 1), (strOf "B", 1000), (strOf "D", 1000000000),
            (strOf "C", 1000000)] := by
  refine ⟨?_, by decide, by decide, by decide, by decide⟩
  intro ps y
  induction ps using List.reverseRecOn with
  | nil => rfl
  | append_singleton ps e ih =>
    unfold mult_for_y at ih ⊢
    rw [List.foldl_append, List.filter_append]
    by_cases hc : rleb e.1 y = true
    · simp [hc, List.getLast?_concat]
    · simp only [List.foldl_cons, List.foldl_nil, List.filter_cons, hc]
      simpa using ih

/-! ## A toolbox for `strip` -/

theorem dropWhile_head_eq_self {α : Type} {p : α → Bool} {l : List α}
    (h : ∀ a, l.head? = some a → p a = false) : l.dropWhile p = l := by
  cases l with
  | nil => rfl
  | cons c t =>
    refine List.dropWhile_cons_of_neg ?_
    rw [h c rfl]
    simp

theorem dropWhile_head_not {α : Type} {p : α → Bool} {l : List α} {a : α}
    (h : (l.dropWhile p).head? = some a) : p a = false := by
  have hw := List.head?_dropWhile_not p l
  rw [h] at hw
  exact hw

theorem dropWhile_idem {α : Type} (p : α → Bool) (l : List α) :
    (l.dropWhile p).dropWhile p = l.dropWhile p :=
  dropWhile_head_eq_self (fun _ ha => dropWhile_head_not ha)

theorem getLast?_dropWhile {α : Type} (p : α → Bool) :
    ∀ (l : List α), l.dropWhile p ≠ [] → (l.dropWhile p).getLast? = l.getLast? := by
  intro l
  induction l with
  | nil => intro h; exact absurd rfl h
  | cons c t ih =>
    by_cases hc : p c = true
    · rw [List.dropWhile_cons_of_pos hc]
      intro hne
      have ht : t ≠ [] := by
        intro ht
        rw [ht] at hne
        exact hne rfl
      rw [ih hne]
      cases t with
      | nil => exact absurd rfl ht
      | cons b u => rw [List.getLast?_cons_cons]
    · rw [List.dropWhile_cons_of_neg (by rw [Bool.not_eq_true] at hc; rw [hc]; simp)]
      intro
      rfl

theorem strip_head_not {s : Str} {a : Char} (h : (strip s).head? = some a) :
    isSpaceChar a = false := by
  unfold strip at h
  rw [List.head?_reverse] at h
  by_cases hB : (s.dropWhile isSpaceChar).reverse.dropWhile isSpaceChar = []
  · rw [hB] at h
    cases h
  · rw [getLast?_dropWhile _ _ hB, List.getLast?_reverse] at h
    exact dropWhile_head_not h

theorem strip_getLast_not {s : Str} {a : Char} (h : (strip s).getLast? = some a) :
    isSpaceChar a = false := by
  unfold strip at h
  rw [List.getLast?_reverse] at h
  exact dropWhile_head_not h

theorem strip_idem (s : Str) : strip (strip s) = strip s := by
  have h1 : (strip s).dropWhile isSpaceChar = strip s :=
    dropWhile_head_eq_self (fun _ ha => strip_head_not ha)
  have h2 : (strip s).reverse.dropWhile isSpaceChar = (strip s).reverse := by
    refine dropWhile_head_eq_self ?_
    intro a ha
    rw [List.head?_reverse] at ha
    exact strip_getLast_not ha
  show (((strip s).dropWhile isSpaceChar).reverse.dropWhile isSpaceChar).reverse = strip s
  rw [h1, h2, List.reverse_reverse]

theorem mem_strip {s : Str} {a : Char} (h : a ∈ strip s) : a ∈ s := by
  unfold strip at h
  rw [List.mem_reverse] at h
  have h2 := (List.dropWhile_sublist (l := (s.dropWhile isSpaceChar).reverse)
    (p := isSpaceChar)).subset h
  rw [List.mem_reverse] at h2
  exact (List.dropWhile_sublist (l := s) (p := isSpaceChar)).subset h2

theorem replaceNl_no_nl (s : Str) : '\n' ∉ replaceNl s := by
  intro h
  unfold replaceNl at h
  rw [List.mem_map] at h
  obtain ⟨c, _, hc⟩ := h
  by_cases hcn : c = '\n'
  · rw [if_pos hcn] at hc
    cases hc
  · rw [if_neg hcn] at hc
    exact hcn hc

theorem rowLabel_no_nl (row : List (Option Str)) : '\n' ∉ rowLabel row := by
  unfold rowLabel
  cases row with
  | nil => simp
  | cons c t =>
    intro h
    exact replaceNl_no_nl _ (mem_strip h)

theorem splitNl_single {s : Str} (h : '\n' ∉ s) : splitNl s = [s] := by
  induction s with
  | nil => rfl
  | cons c t ih =>
    have hc : ¬ c = '\n' := fun hq => h (hq ▸ List.mem_cons_self c t)
    have ht : '\n' ∉ t := fun hq => h (List.mem_cons_of_mem c hq)
    unfold splitNl at ih ⊢
    rw [List.foldr_cons, ih ht]
    dsimp only
    rw [if_neg hc]

theorem rowLabel_strip (row : List (Option Str)) :
    strip (rowLabel row) = rowLabel row := by
  cases row with
  | nil => rfl
  | cons c t => exact strip_idem _

theorem cellInlines_stamp {sec : Option Str} {pg : Option ℤ} {src : Option Str}
    {cell : Option Str} {l : List ExtractedNumber}
    (h : cellInlines sec pg src cell = some l) :
    ∀ r ∈ l, r.source_type = SourceType.table_narrative := by
  intro r hr
  unfold cellInlines at h
  cases cell with
  | none => cases h; simp at hr
  | some c =>
    dsimp only at h
    split at h
    · cases h; simp at hr
    · rw [Option.map_eq_some'] at h
      obtain ⟨l0, _, hmap⟩ := h
      rw [← hmap, List.mem_map] at hr
      obtain ⟨r0, _, hEq⟩ := hr
      rw [← hEq]

theorem scanRowCells_stamp {sec : Option Str} {pg : Option ℤ} {src : Option Str} :
    ∀ {cells : List (Option Str)} {acc out : List ExtractedNumber},
      scanRowCells sec pg src acc cells = some out →
      ∀ r ∈ out, r ∈ acc ∨ r.source_type = SourceType.table_narrative := by
  intro cells
  induction cells with
  | nil =>
    intro acc out h r hr
    cases h
    exact Or.inl hr
  | cons c cs ih =>
    intro acc out h r hr
    simp only [scanRowCells] at h
    cases hc : cellInlines sec pg src c with
    | none => rw [hc] at h; cases h
    | some l =>
      rw [hc] at h
      rcases ih h r hr with hm | hm
      · rcases List.mem_append.mp hm with hm | hm
        · exact Or.inl hm
        · exact Or.inr (cellInlines_stamp hc r hm)
      · exact Or.inr hm

theorem scanRows_stamp {sec : Option Str} {pg : Option ℤ} {src : Option Str} :
    ∀ {rows : List (List (Option Str))} {acc out : List ExtractedNumber},
      scanRows sec pg src acc rows = some out →
      ∀ r ∈ out, r ∈ acc ∨ r.source_type = SourceType.table_narrative := by
  intro rows
  induction rows with
  | nil =>
    intro acc out h r hr
    cases h
    exact Or.inl hr
  | cons row rs ih =>
    intro acc out h r hr
    simp only [scanRows] at h
    cases hc : scanRowCells sec pg src acc row with
    | none => rw [hc] at h; cases h
    | some acc2 =>
      rw [hc] at h
      rcases ih h r hr with hm | hm
      · rcases scanRowCells_stamp hc r hm with hm2 | hm2
        · exact Or.inl hm2
        · exact Or.inr hm2
      · exact Or.inr hm

theorem mem_processRow_struct {headers : List Str} {ml : Option Str} {mf : ℕ}
    {sec : Option Str} {pg : Option ℤ} {src : Option Str}
    {row : List (Option Str)} {r : ExtractedNumber}
    (hr : r ∈ processRow headers ml mf sec pg src row) :
    r.source_type = SourceType.table ∧
    r.row_label = rowLabel row ∧
    (match find_header_multiplier (rowLabel row) with
     | some lf => r.multiplier_label = some lf.1 ∧ r.multiplier = lf.2
     | none =>
       if r.raw.contains '.' then r.multiplier_label = ml ∧ r.multiplier = mf
       else r.multiplier_label = none ∧ r.multiplier = 1) := by
  have hsl : (if (((row.headD none).getD []).contains '\n') = true
      then splitNl (rowLabel row) else [rowLabel row]) = [rowLabel row] := by
    split
    · exact splitNl_single (rowLabel_no_nl row)
    · rfl
  simp only [processRow, List.mem_flatMap] at hr
  obtain ⟨ic, _, hr⟩ := hr
  split at hr
  · simp at hr
  · split at hr
    · simp at hr
    · simp only [List.mem_flatMap] at hr
      obtain ⟨vv, _, hr⟩ := hr
      split at hr
      · simp at hr
      · split at hr
        · simp at hr
        · rw [hsl] at hr
          simp only [List.mem_singleton] at hr
          subst hr
          refine ⟨rfl, ?_, ?_⟩
          · show (if vv.1 < [rowLabel row].length
                then strip ([rowLabel row].getD vv.1 [])
                else strip ([rowLabel row].getLastD [])) = rowLabel row
            by_cases hvi : vv.1 < [rowLabel row].length
            · rw [if_pos hvi]
              have : vv.1 = 0 := by
                simp only [List.length_singleton] at hvi
                omega
              rw [this]
              show strip (rowLabel row) = rowLabel row
              exact rowLabel_strip row
            · rw [if_neg hvi]
              show strip (rowLabel row) = rowLabel row
              exact rowLabel_strip row
          · cases hrm : find_header_multiplier (rowLabel row) with
            | some lf => exact ⟨rfl, rfl⟩
            | none =>
              show if (strip vv.2).contains '.' = true then _ ∧ _ else _ ∧ _
              by_cases hdot : ((strip vv.2).contains '.') = true
              · rw [if_pos hdot]
                show (if (strip vv.2).contains '.' = true
                    then ((ml, mf) : Option Str × ℕ) else (none, 1)).1 = ml ∧
                  (if (strip vv.2).contains '.' = true
                    then ((ml, mf) : Option Str × ℕ) else (none, 1)).2 = mf
                rw [if_pos hdot]
                exact ⟨rfl, rfl⟩
              · rw [if_neg hdot]
                show (if (strip vv.2).contains '.' = true
                    then ((ml, mf) : Option Str × ℕ) else (none, 1)).1 = none ∧
                  (if (strip vv.2).contains '.' = true
                    then ((ml, mf) : Option Str × ℕ) else (none, 1)).2 = 1
                rw [if_neg hdot]
                exact ⟨rfl, rfl⟩

theorem mem_extract_from_table_struct {rows : List (List (Option Str))}
    {ml : Option Str} {mf : ℕ} {sec : Option Str} {pg : Option ℤ}
    {src : Option Str} {recs : List ExtractedNumber} {r : ExtractedNumber}
    (h : extract_from_table rows ml mf sec pg src = some recs)
    (hr : r ∈ recs) (hst : r.source_type = SourceType.table) :
    ∃ row ∈ rows.drop (tableDataStart rows),
      r.row_label = rowLabel row ∧
      (match find_header_multiplier (rowLabel row) with
       | some lf => r.multiplier_label = some lf.1 ∧ r.multiplier = lf.2
       | none =>
         if r.raw.contains '.' then r.multiplier_label = ml ∧ r.multiplier = mf
         else r.multiplier_label = none ∧ r.multiplier = 1) := by
  unfold extract_from_table at h
  split at h
  · cases h; simp at hr
  · split at h
    · cases h; simp at hr
    · cases hs : scanRows sec pg src [] rows with
      | none => rw [hs] at h; cases h
      | some inlineRecs =>
        rw [hs] at h
        cases h
        rcases List.mem_append.mp hr with hmem | hmem
        · rw [List.mem_flatMap] at hmem
          obtain ⟨row, hrow, hmem⟩ := hmem
          obtain ⟨_, hlbl, hmul⟩ := mem_processRow_struct hmem
          exact ⟨row, hrow, hlbl, hmul⟩
        · rcases scanRows_stamp hs r hmem with hm | hm
          · simp at hm
          · rw [hm] at hst
            cases hst

/-- C2: in `extract_from_table`, every emitted data record's effective
scale follows the precedence: a scale declared by its row's label wins
unconditionally; otherwise the caller's default scale applies iff the
sub-value's raw text contains a decimal point; otherwise no scale
(label none, factor 1).  With default (Million, 1e6): cell `"150"` yields
label none and `adjusted_value = value`; cell `"150.5"` yields factor
1e6; a row labeled `"(Hours in Thousands)"` forces factor 1000 whether
the value is `"150"` or `"150.5"`. -/
theorem C2_table_scale_precedence :
    (∀ (rows : List (List (Option Str))) (ml : Option Str) (mf : ℕ)
       (sec : Option Str) (pg : Option ℤ) (src : Option Str)
       (recs : List ExtractedNumber) (r : ExtractedNumber),
       extract_from_table rows ml mf sec pg src = some recs → r ∈ recs →
       r.source_type = SourceType.table →
       ∃ row ∈ rows.drop (tableDataStart rows),
         r.row_label = rowLabel row ∧
         (match find_header_multiplier (rowLabel row) with
          | some lf => r.multiplier_label = some lf.1 ∧ r.multiplier = lf.2
          | none =>
            if r.raw.contains '.' then
              r.multiplier_label = ml ∧ r.multiplier = mf
            else r.multiplier_label = none ∧ r.multiplier = 1)) ∧
    (extract_from_table (mkRows "Headcount" "150") (some (strOf "Million"))
        1000000 none none none).map
      (List.map (fun r => (r.multiplier_label, r.value, r.adjusted_value))) =
      some [(none, 150, 150)] ∧
    (extract_from_table (mkRows "Budget" "150.5") (some (strOf "Million"))
        1000000 none none none).map
      (List.map (fun r => (r.multiplier, r.adjusted_value))) =
      some [(1000000, 150500000)] ∧
    (extract_from_table (mkRows "(Hours in Thousands)" "150")
        (some (strOf "Million")) 1000000 none none none).map
      (List.map (fun r => (r.multiplier_label, r.multiplier, r.adjusted_value))) =
      some [(some (strOf "Thousand"), 1000, 150000)] ∧
    (extract_from_table (mkRows "(Hours in Thousands)" "150.5")
        (some (strOf "Million")) 1000000 none none none).map
      (List.map (fun r => (r.multiplier, r.adjusted_value))) =
      some [(1000, 150500)] := by
  refine ⟨?_, by decide, by decide, by decide, by decide⟩
  intro rows ml mf sec pg src recs r h hr hst
  exact mem_extract_from_table_struct h hr hst

theorem C2_table_scale_precedence_witness :
    ∃ row ∈ exRows150.drop (tableDataStart exRows150),
      exRec150.row_label = rowLabel row ∧
      (match find_header_multiplier (rowLabel row) with
       | some lf =>
         exRec150.multiplier_label = some lf.1 ∧ exRec150.multiplier = lf.2
       | none =>
         if exRec150.raw.contains '.' then
           exRec150.multiplier_label = some (strOf "Million") ∧
           exRec150.multiplier = 1000000
         else exRec150.multiplier_label = none ∧ exRec150.multiplier = 1) :=
  C2_table_scale_precedence.1 exRows150 (some (strOf "Million")) 1000000
    none none none [exRec150] exRec150 (by decide) (by decide) (by decide)

/-- C9 (amended): each newline-separated sub-value is emitted with
`row_label` equal to the *combined* row label (the row-0 cell with
newlines replaced by spaces): the sub-labels are derived by
newline-splitting the already-replaced label, which contains no newline,
so the sub-label list is always the one-element list holding the combined
label, and every sub-value — aligned or excess — receives it. -/
theorem C9_sub_label_alignment :
    (∀ (rows : List (List (Option Str))) (ml : Option Str) (mf : ℕ)
       (sec : Option Str) (pg : Option ℤ) (src : Option Str)
       (recs : List ExtractedNumber) (r : ExtractedNumber),
       extract_from_table rows ml mf sec pg src = some recs → r ∈ recs →
       r.source_type = SourceType.table →
       ∃ row ∈ rows.drop (tableDataStart rows), r.row_label = rowLabel row) ∧
    extract_from_table exRowsEquip (some (strOf "Million")) 1000000
        none none none = some [exRecEquip1, exRecEquip2] ∧
    exRecEquip1.row_label = strOf "Equipment Total" ∧
    exRecEquip2.row_label = strOf "Equipment Total" := by
  refine ⟨?_, by decide, by decide, by decide⟩
  intro rows ml mf sec pg src recs r h hr hst
  obtain ⟨row, hrow, hlbl, _⟩ := mem_extract_from_table_struct h hr hst
  exact ⟨row, hrow, hlbl⟩

theorem C9_sub_label_alignment_witness :
    ∃ row ∈ exRowsEquip.drop (tableDataStart exRowsEquip),
      exRecEquip2.row_label = rowLabel row :=
  C9_sub_label_alignment.1 exRowsEquip (some (strOf "Million")) 1000000
    none none none [exRecEquip1, exRecEquip2] exRecEquip2
    (by decide) (by decide) (by decide)

theorem sectionUpdate_of_not_header {st : PageState} {box : Box}
    (h : ¬ box.boxclass = strOf "section-header") :
    sectionUpdate st box = st := by
  unfold sectionUpdate
  rw [if_neg h]

/-- C7: a table box whose cells carry a scale declaration but no cell
recognized as a number (a banner table) contributes no records and
appends its scale to the page-level declarations at the banner's
position; a data table below it on the same page, lacking its own
embedded scale, inherits that scale (`exC7Pages`); declarations never
carry across page boundaries (`exC7TwoPages`: the page-2 table is
processed with no scale, factor 1). -/
theorem C7_banner_promotion :
    (∀ (src : Str) (pnum : ℤ) (st : PageState) (box : Box) (t : TableData)
       (lf : Str × ℕ),
       box.boxclass = strOf "table" → box.table = some t →
       ¬ t.extract.isEmpty = true →
       find_header_multiplier (tableText t.extract) = some lf →
       tableHasData t.extract = false →
       processBox src pnum st box =
         some { st with mults := st.mults ++ [(box.y0, lf.1, lf.2)] }) ∧
    (extract_from_pages exC7Pages (strOf "doc.pdf")).map
        (fun l => l.map (fun r => (r.multiplier_label, r.adjusted_value))) =
      some [(some (strOf "Million"), 99500000)] ∧
    (extract_from_pages exC7TwoPages (strOf "doc.pdf")).map
        (fun l => l.map (fun r => (r.multiplier_label, r.multiplier))) =
      some [(none, 1)] := by
  refine ⟨?_, by decide, by decide⟩
  intro src pnum st box t lf hbc htab hne hfm hnd
  unfold processBox
  dsimp only
  have hsu : sectionUpdate st box = st := by
    refine sectionUpdate_of_not_header ?_
    rw [hbc]
    decide
  rw [hsu, hbc]
  rw [if_neg (by decide : ¬ strOf "table" = strOf "text")]
  rw [htab]
  dsimp only
  rw [if_pos rfl]
  unfold tableBoxStep
  rw [if_neg hne, hfm, hnd]
  rfl

theorem C7_banner_promotion_witness :
    processBox (strOf "doc.pdf") 1 ⟨[], none, []⟩
      (mkTableBox [[some (strOf "Fund"), some (strOf "Unit"),
        some (strOf "($M)")]] 10) =
      some ⟨[] ++ [((10 : ℚ), strOf "Million", 1000000)], none, []⟩ :=
  C7_banner_promotion.1 (strOf "doc.pdf") 1 ⟨[], none, []⟩
    (mkTableBox [[some (strOf "Fund"), some (strOf "Unit"),
      some (strOf "($M)")]] 10)
    ⟨[[some (strOf "Fund"), some (strOf "Unit"), some (strOf "($M)")]]⟩
    (strOf "Million", 1000000) (by decide) (by decide) (by decide)
    (by decide) (by decide)

/-! ## Character-class facts -/

theorem spaceChar_cases {c : Char} (h : isSpaceChar c = true) :
    c = ' ' ∨ c = '\t' ∨ c = '\n' ∨ c = '\r' ∨ c = '\x0b' ∨ c = '\x0c' := by
  simp only [isSpaceChar, Bool.or_eq_true, decide_eq_true_eq] at h
  tauto

theorem space_not_digComma {c : Char} (h : isSpaceChar c = true) :
    isDigComma c = false := by
  rcases spaceChar_cases h with h | h | h | h | h | h <;> subst h <;> decide

theorem space_not_digit {c : Char} (h : isSpaceChar c = true) :
    isDigitChar c = false := by
  rcases spaceChar_cases h with h | h | h | h | h | h <;> subst h <;> decide

theorem space_keep {c : Char} (h : isSpaceChar c = true) : keepChar c = true := by
  rcases spaceChar_cases h with h | h | h | h | h | h <;> subst h <;> decide

theorem digComma_not_space {c : Char} (h : isDigComma c = true) :
    isSpaceChar c = false := by
  cases hs : isSpaceChar c with
  | false => rfl
  | true => rw [space_not_digComma hs] at h; cases h

theorem digit_not_space {c : Char} (h : isDigitChar c = true) :
    isSpaceChar c = false := by
  cases hs : isSpaceChar c with
  | false => rfl
  | true => rw [space_not_digit hs] at h; cases h

theorem keep_cases {c : Char} (h : keepChar c = false) :
    c = '(' ∨ c = ')' ∨ c = ',' := by
  simp only [keepChar, Bool.not_eq_false', Bool.or_eq_true, decide_eq_true_eq] at h
  tauto

theorem digit_keep {c : Char} (h : isDigitChar c = true) : keepChar c = true := by
  cases hk : keepChar c with
  | true => rfl
  | false => rcases keep_cases hk with h2 | h2 | h2 <;> subst h2 <;> cases h

theorem digComma_keep_digit {c : Char} (h1 : isDigComma c = true)
    (h2 : keepChar c = true) : isDigitChar c = true := by
  simp only [isDigComma, Bool.or_eq_true, decide_eq_true_eq] at h1
  rcases h1 with h1 | h1
  · exact h1
  · subst h1; cases h2

theorem contains_iff_mem' {l : Str} {c : Char} : l.contains c = true ↔ c ∈ l := by
  show l.elem c = true ↔ c ∈ l
  exact List.elem_iff

/-! ## Decomposition of `strip` and `dropOpt` -/

theorem dropOpt_decomp (c : Char) (s : Str) :
    ∃ p, (p = [] ∨ p = [c]) ∧ s = p ++ dropOpt c s := by
  cases s with
  | nil => exact ⟨[], Or.inl rfl, rfl⟩
  | cons a t =>
    by_cases h : a = c
    · subst h
      refine ⟨[a], Or.inr rfl, ?_⟩
      show a :: t = [a] ++ (if a = a then t else a :: t)
      rw [if_pos rfl]
      rfl
    · refine ⟨[], Or.inl rfl, ?_⟩
      show a :: t = [] ++ (if a = c then t else a :: t)
      rw [if_neg h]
      rfl

theorem strip_decomp (s : Str) :
    ∃ wa wb, s = wa ++ (strip s ++ wb) ∧
      (∀ c ∈ wa, isSpaceChar c = true) ∧ (∀ c ∈ wb, isSpaceChar c = true) := by
  refine ⟨s.takeWhile isSpaceChar,
    ((s.dropWhile isSpaceChar).reverse.takeWhile isSpaceChar).reverse, ?_, ?_, ?_⟩
  · conv_lhs => rw [← List.takeWhile_append_dropWhile (p := isSpaceChar) (l := s)]
    congr 1
    show s.dropWhile isSpaceChar = strip s ++ _
    unfold strip
    rw [← List.reverse_append,
      List.takeWhile_append_dropWhile, List.reverse_reverse]
  · intro c hc
    exact List.mem_takeWhile_imp hc
  · intro c hc
    rw [List.mem_reverse] at hc
    exact List.mem_takeWhile_imp hc

theorem strip_ws_left {w x : Str} (hw : ∀ c ∈ w, isSpaceChar c = true) :
    strip (w ++ x) = strip x := by
  unfold strip
  rw [List.dropWhile_append]
  rw [List.dropWhile_eq_nil_iff.mpr hw]
  simp

theorem strip_ws_right {x w : Str} (hw : ∀ c ∈ w, isSpaceChar c = true) :
    strip (x ++ w) = strip x := by
  unfold strip
  rw [List.dropWhile_append]
  by_cases hx : (x.dropWhile isSpaceChar).isEmpty = true
  · rw [if_pos hx]
    rw [List.dropWhile_eq_nil_iff.mpr hw]
    rw [List.isEmpty_iff] at hx
    rw [hx]
  · rw [if_neg hx]
    rw [List.reverse_append, List.dropWhile_append]
    rw [List.dropWhile_eq_nil_iff.mpr (by intro c hc; rw [List.mem_reverse] at hc; exact hw c hc)]
    simp

theorem strip_no_ws {l : Str} (h : ∀ c ∈ l, isSpaceChar c = false) :
    strip l = l := by
  have h1 : l.dropWhile isSpaceChar = l :=
    dropWhile_head_eq_self (fun a ha =>
      h a (List.mem_of_mem_head? (by rw [ha]; rfl)))
  have h2 : l.reverse.dropWhile isSpaceChar = l.reverse :=
    dropWhile_head_eq_self (fun a ha => h a (by
      rw [← List.mem_reverse]
      exact List.mem_of_mem_head? (by rw [ha]; rfl)))
  unfold strip
  rw [h1, h2, List.reverse_reverse]

theorem pn_cleaned_strip (s : Str) : pn_cleaned (strip s) = pn_cleaned s := by
  obtain ⟨wa, wb, hs, hwa, hwb⟩ := strip_decomp s
  conv_rhs => rw [pn_cleaned, hs]
  rw [List.filter_append, List.filter_append]
  rw [List.filter_eq_self.mpr (fun c hc => space_keep (hwa c hc))]
  rw [List.filter_eq_self.mpr (fun c hc => space_keep (hwb c hc))]
  rw [strip_ws_left hwa, strip_ws_right hwb]
  rfl

theorem is_number_decomp {s : Str} (h : is_number s = true) :
    ∃ w1 p1 w2 core d w3 p2 w4,
      s = w1 ++ (p1 ++ (w2 ++ (core ++ (d ++ (w3 ++ (p2 ++ w4)))))) ∧
      (∀ c ∈ w1, isSpaceChar c = true) ∧ (∀ c ∈ w2, isSpaceChar c = true) ∧
      (∀ c ∈ w3, isSpaceChar c = true) ∧ (∀ c ∈ w4, isSpaceChar c = true) ∧
      (p1 = [] ∨ p1 = ['(']) ∧ (p2 = [] ∨ p2 = [')']) ∧
      core ≠ [] ∧ (∀ c ∈ core, isDigComma c = true) ∧
      (d = [] ∨ ∃ fr, d = '.' :: fr ∧ ∀ c ∈ fr, isDigitChar c = true) := by
  simp only [is_number] at h
  obtain ⟨p1, hp1, hp1eq⟩ := dropOpt_decomp '(' (s.dropWhile isSpaceChar)
  split at h
  · cases h
  · rename_i hguard
    set r1 := dropOpt '(' (s.dropWhile isSpaceChar) with hr1def
    set r2 := r1.dropWhile isSpaceChar with hr2def
    have hs0 : s = s.takeWhile isSpaceChar ++ (s.dropWhile isSpaceChar) :=
      (List.takeWhile_append_dropWhile _ _).symm
    have hr1 : r1 = r1.takeWhile isSpaceChar ++ r2 :=
      (List.takeWhile_append_dropWhile _ _).symm
    have hr2 : r2 = r2.takeWhile isDigComma ++ r2.dropWhile isDigComma :=
      (List.takeWhile_append_dropWhile _ _).symm
    have hcore_ne : r2.takeWhile isDigComma ≠ [] := by
      intro hq
      rw [hq] at hguard
      exact hguard rfl
    have hcore_mem : ∀ c ∈ r2.takeWhile isDigComma, isDigComma c = true :=
      fun c hc => List.mem_takeWhile_imp hc
    -- continue with the tail after the optional fraction part
    split at h
    · rename_i t3 heq3
      -- r3 = '.' :: t3
      obtain ⟨p2, hp2, hp2eq⟩ :=
        dropOpt_decomp ')' ((t3.dropWhile isDigitChar).dropWhile isSpaceChar)
      set r4 := t3.dropWhile isDigitChar with hr4def
      set r5 := r4.dropWhile isSpaceChar with hr5def
      set r6 := dropOpt ')' r5 with hr6def
      have hw4 : ∀ c ∈ r6, isSpaceChar c = true := by
        rw [List.isEmpty_iff] at h
        exact List.dropWhile_eq_nil_iff.mp h
      refine ⟨s.takeWhile isSpaceChar, p1, r1.takeWhile isSpaceChar,
        r2.takeWhile isDigComma, '.' :: t3.takeWhile isDigitChar,
        r4.takeWhile isSpaceChar, p2, r6, ?_, ?_, ?_, ?_, ?_, hp1, hp2,
        hcore_ne, hcore_mem, ?_⟩
      · conv_lhs => rw [hs0, hp1eq]
        congr 1
        congr 1
        conv_lhs => rw [hr1]
        congr 1
        conv_lhs => rw [hr2]
        congr 1
        rw [heq3]
        have ht3 : t3 = t3.takeWhile isDigitChar ++ r4 :=
          (List.takeWhile_append_dropWhile _ _).symm
        conv_lhs => rw [ht3]
        show '.' :: (t3.takeWhile isDigitChar ++ r4) =
          ('.' :: t3.takeWhile isDigitChar) ++ (r4.takeWhile isSpaceChar ++ (p2 ++ r6))
        rw [List.cons_append]
        congr 1
        conv_lhs => rw [(List.takeWhile_append_dropWhile isSpaceChar r4).symm]
        show List.takeWhile isDigitChar t3 ++ (List.takeWhile isSpaceChar r4 ++ r5) =
          List.takeWhile isDigitChar t3 ++ (List.takeWhile isSpaceChar r4 ++ (p2 ++ r6))
        rw [hp2eq]
      · exact fun c hc => List.mem_takeWhile_imp hc
      · exact fun c hc => List.mem_takeWhile_imp hc
      · exact fun c hc => List.mem_takeWhile_imp hc
      · exact hw4
      · exact Or.inr ⟨t3.takeWhile isDigitChar, rfl,
          fun c hc => List.mem_takeWhile_imp hc⟩
    · -- the tail does not start with '.': d = []
      obtain ⟨p2, hp2, hp2eq⟩ :=
        dropOpt_decomp ')' ((r2.dropWhile isDigComma).dropWhile isSpaceChar)
      set r5 := (r2.dropWhile isDigComma).dropWhile isSpaceChar with hr5def
      set r6 := dropOpt ')' r5 with hr6def
      have hw4 : ∀ c ∈ r6, isSpaceChar c = true := by
        rw [List.isEmpty_iff] at h
        exact List.dropWhile_eq_nil_iff.mp h
      refine ⟨s.takeWhile isSpaceChar, p1, r1.takeWhile isSpaceChar,
        r2.takeWhile isDigComma, [],
        (r2.dropWhile isDigComma).takeWhile isSpaceChar, p2, r6,
        ?_, ?_, ?_, ?_, ?_, hp1, hp2, hcore_ne, hcore_mem, Or.inl rfl⟩
      · conv_lhs => rw [hs0, hp1eq]
        congr 1
        congr 1
        conv_lhs => rw [hr1]
        congr 1
        conv_lhs => rw [hr2]
        congr 1
        show r2.dropWhile isDigComma =
          [] ++ ((r2.dropWhile isDigComma).takeWhile isSpaceChar ++ (p2 ++ r6))
        rw [List.nil_append]
        conv_lhs => rw [(List.takeWhile_append_dropWhile isSpaceChar
          (r2.dropWhile isDigComma)).symm]
        congr 1
      · exact fun c hc => List.mem_takeWhile_imp hc
      · exact fun c hc => List.mem_takeWhile_imp hc
      · exact fun c hc => List.mem_takeWhile_imp hc
      · exact hw4

theorem pn_cleaned_of_decomp {w1 p1 w2 core d w3 p2 w4 : Str}
    (hw1 : ∀ c ∈ w1, isSpaceChar c = true) (hw2 : ∀ c ∈ w2, isSpaceChar c = true)
    (hw3 : ∀ c ∈ w3, isSpaceChar c = true) (hw4 : ∀ c ∈ w4, isSpaceChar c = true)
    (hp1 : p1 = [] ∨ p1 = ['(']) (hp2 : p2 = [] ∨ p2 = [')'])
    (hcore : ∀ c ∈ core, isDigComma c = true)
    (hd : d = [] ∨ ∃ fr, d = '.' :: fr ∧ ∀ c ∈ fr, isDigitChar c = true) :
    pn_cleaned (w1 ++ (p1 ++ (w2 ++ (core ++ (d ++ (w3 ++ (p2 ++ w4))))))) =
      core.filter keepChar ++ d := by
  unfold pn_cleaned
  repeat rw [List.filter_append]
  rw [List.filter_eq_self.mpr (fun c hc => space_keep (hw1 c hc))]
  rw [List.filter_eq_self.mpr (fun c hc => space_keep (hw2 c hc))]
  rw [List.filter_eq_self.mpr (fun c hc => space_keep (hw3 c hc))]
  rw [List.filter_eq_self.mpr (fun c hc => space_keep (hw4 c hc))]
  have hfp1 : p1.filter keepChar = [] := by
    rcases hp1 with h | h <;> subst h <;> decide
  have hfp2 : p2.filter keepChar = [] := by
    rcases hp2 with h | h <;> subst h <;> decide
  have hfd : d.filter keepChar = d := by
    refine List.filter_eq_self.mpr ?_
    rcases hd with h | ⟨fr, hfr, hdig⟩
    · subst h
      intro c hc
      cases hc
    · subst hfr
      intro c hc
      rcases List.mem_cons.mp hc with hc | hc
      · subst hc
        decide
      · exact digit_keep (hdig c hc)
  rw [hfp1, hfp2, hfd]
  simp only [List.nil_append]
  have hnos : ∀ c ∈ core.filter keepChar ++ d, isSpaceChar c = false := by
    intro c hc
    rcases List.mem_append.mp hc with hc | hc
    · rw [List.mem_filter] at hc
      exact digComma_not_space (hcore c hc.1)
    · rcases hd with h | ⟨fr, hfr, hdig⟩
      · subst h
        cases hc
      · subst hfr
        rcases List.mem_cons.mp hc with hc | hc
        · subst hc
          decide
        · exact digit_not_space (hdig c hc)
  rw [strip_ws_left hw1, strip_ws_left hw2]
  have hassoc : core.filter keepChar ++ (d ++ (w3 ++ w4)) =
      (core.filter keepChar ++ d) ++ (w3 ++ w4) := by
    rw [List.append_assoc]
  rw [hassoc]
  have hw34 : ∀ c ∈ w3 ++ w4, isSpaceChar c = true := by
    intro c hc
    rcases List.mem_append.mp hc with hc | hc
    · exact hw3 c hc
    · exact hw4 c hc
  rw [strip_ws_right hw34]
  exact strip_no_ws hnos

theorem pyFloat_digits {cd d : Str} (hcd : ∀ c ∈ cd, isDigitChar c = true)
    (hd : d = [] ∨ ∃ fr, d = '.' :: fr ∧ ∀ c ∈ fr, isDigitChar c = true)
    (hne : cd ≠ [] ∨ ∃ fr, d = '.' :: fr ∧ fr ≠ []) :
    ∃ v, pyFloat (cd ++ d) = some v ∧ 0 ≤ v := by
  have hnos : ∀ c ∈ cd ++ d, isSpaceChar c = false := by
    intro c hc
    rcases List.mem_append.mp hc with hc | hc
    · exact digit_not_space (hcd c hc)
    · rcases hd with h | ⟨fr, hfr, hdig⟩
      · subst h; cases hc
      · subst hfr
        rcases List.mem_cons.mp hc with hc | hc
        · subst hc; decide
        · exact digit_not_space (hdig c hc)
  unfold pyFloat
  rw [strip_no_ws hnos]
  cases cd with
  | nil =>
    rcases hne with h | ⟨fr, hfr, hfrne⟩
    · exact absurd rfl h
    rcases hd with h | ⟨fr2, hfr2, hfrd⟩
    · rw [hfr] at h; cases h
    have hfr2fr : fr2 = fr := by
      rw [hfr] at hfr2
      exact (List.cons.injEq _ _ _ _ ▸ hfr2).2.symm
    subst hfr2fr
    subst hfr2
    simp only [List.nil_append]
    rw [if_neg (by decide : ¬ ('.' = '+')), if_neg (by decide : ¬ ('.' = '-'))]
    dsimp only
    rw [List.takeWhile_cons_of_neg (by decide), List.dropWhile_cons_of_neg (by decide)]
    dsimp only
    rw [if_pos rfl]
    rw [List.takeWhile_eq_self_iff.mpr hfrd, List.dropWhile_eq_nil_iff.mpr hfrd]
    dsimp only
    rw [if_neg (by
      simp only [List.isEmpty_nil, Bool.true_and]
      intro hq
      rw [List.isEmpty_iff] at hq
      exact hfrne hq)]
    dsimp only [pyFloatExp]
    rw [if_pos (le_refl (0 : ℤ))]
    refine ⟨_, rfl, Rat.divInt_nonneg (by positivity) (by positivity)⟩
  | cons c0 cd' =>
    have hc0 : isDigitChar c0 = true := hcd c0 (List.mem_cons_self _ _)
    have hc0p : ¬ c0 = '+' := by
      intro h; rw [h] at hc0; exact absurd hc0 (by decide)
    have hc0m : ¬ c0 = '-' := by
      intro h; rw [h] at hc0; exact absurd hc0 (by decide)
    simp only [List.cons_append]
    rw [if_neg hc0p, if_neg hc0m]
    dsimp only
    have hTW : ((c0 :: (cd' ++ d)).takeWhile isDigitChar) =
        (c0 :: cd') ++ d.takeWhile isDigitChar := by
      rw [← List.cons_append]
      exact List.takeWhile_append_of_pos hcd
    have hDW : ((c0 :: (cd' ++ d)).dropWhile isDigitChar) =
        d.dropWhile isDigitChar := by
      rw [← List.cons_append]
      exact List.dropWhile_append_of_pos hcd
    rw [hTW, hDW]
    rcases hd with h | ⟨fr, hfr, hfrd⟩
    · subst h
      simp only [List.takeWhile_nil, List.dropWhile_nil, List.append_nil]
      rw [if_neg (by simp)]
      dsimp only [pyFloatExp]
      rw [if_pos (le_refl (0 : ℤ))]
      refine ⟨_, rfl, Rat.divInt_nonneg (by positivity) (by positivity)⟩
    · subst hfr
      rw [List.takeWhile_cons_of_neg (by decide), List.dropWhile_cons_of_neg (by decide)]
      rw [List.append_nil]
      dsimp only
      rw [if_pos rfl]
      rw [List.takeWhile_eq_self_iff.mpr hfrd, List.dropWhile_eq_nil_iff.mpr hfrd]
      dsimp only
      rw [if_neg (by simp)]
      dsimp only [pyFloatExp]
      rw [if_pos (le_refl (0 : ℤ))]
      refine ⟨_, rfl, Rat.divInt_nonneg (by positivity) (by positivity)⟩

theorem parse_of_is_number {s : Str} (hn : is_number s = true)
    (hdig : ∃ c ∈ s, isDigitChar c = true) :
    ∃ v, parse_number s = some v ∧ (0 ≤ v ∨ ('(' ∈ s ∧ ')' ∈ s)) := by
  obtain ⟨w1, p1, w2, core, d, w3, p2, w4, hs, hw1, hw2, hw3, hw4,
    hp1, hp2, hcne, hcm, hd⟩ := is_number_decomp hn
  have hclean : pn_cleaned s = core.filter keepChar ++ d := by
    rw [hs]
    exact pn_cleaned_of_decomp hw1 hw2 hw3 hw4 hp1 hp2 hcm hd
  have hcd : ∀ c ∈ core.filter keepChar, isDigitChar c = true := by
    intro c hc
    rw [List.mem_filter] at hc
    exact digComma_keep_digit (hcm c hc.1) hc.2
  obtain ⟨c0, hc0s, hc0d⟩ := hdig
  have hc0pieces : c0 ∈ core ∨ c0 ∈ d := by
    rw [hs] at hc0s
    simp only [List.mem_append] at hc0s
    rcases hc0s with h | h | h | h | h | h | h | h
    · exact absurd (hw1 c0 h) (by intro hq; rw [space_not_digit hq] at hc0d; cases hc0d)
    · rcases hp1 with hq | hq <;> subst hq
      · cases h
      · rcases List.mem_singleton.mp h with hq
        subst hq
        cases hc0d
    · exact absurd (hw2 c0 h) (by intro hq; rw [space_not_digit hq] at hc0d; cases hc0d)
    · exact Or.inl h
    · exact Or.inr h
    · exact absurd (hw3 c0 h) (by intro hq; rw [space_not_digit hq] at hc0d; cases hc0d)
    · rcases hp2 with hq | hq <;> subst hq
      · cases h
      · rcases List.mem_singleton.mp h with hq
        subst hq
        cases hc0d
    · exact absurd (hw4 c0 h) (by intro hq; rw [space_not_digit hq] at hc0d; cases hc0d)
  have hmant : core.filter keepChar ≠ [] ∨ ∃ fr, d = '.' :: fr ∧ fr ≠ [] := by
    rcases hc0pieces with h | h
    · refine Or.inl ?_
      intro hq
      have : c0 ∈ core.filter keepChar :=
        List.mem_filter.mpr ⟨h, digit_keep hc0d⟩
      rw [hq] at this
      cases this
    · rcases hd with hq | ⟨fr, hfr, hfrd⟩
      · subst hq; cases h
      · subst hfr
        rcases List.mem_cons.mp h with hq | hq
        · subst hq; cases hc0d
        · refine Or.inr ⟨fr, rfl, ?_⟩
          intro hfr0
          rw [hfr0] at hq
          cases hq
  obtain ⟨v0, hv0, hv0n⟩ := pyFloat_digits hcd hd hmant
  have hts : ¬ (strip s).isEmpty = true := by
    intro hq
    rw [List.isEmpty_iff] at hq
    obtain ⟨wa, wb, hsw, hwa, hwb⟩ := strip_decomp s
    rw [hq, List.nil_append] at hsw
    have hc0m : c0 ∈ wa ++ wb := hsw ▸ hc0s
    rcases List.mem_append.mp hc0m with h | h
    · rw [space_not_digit (hwa c0 h)] at hc0d; cases hc0d
    · rw [space_not_digit (hwb c0 h)] at hc0d; cases hc0d
  have hpc : pn_cleaned (strip s) = core.filter keepChar ++ d := by
    rw [pn_cleaned_strip]
    exact hclean
  unfold parse_number
  rw [if_neg hts]
  rw [hpc, hv0]
  dsimp only
  cases hneg : ((strip s).contains '(' && (strip s).contains ')') with
  | false => exact ⟨v0, rfl, Or.inl hv0n⟩
  | true =>
    refine ⟨-v0, rfl, Or.inr ?_⟩
    rw [Bool.and_eq_true] at hneg
    constructor
    · exact mem_strip (contains_iff_mem'.mp hneg.1)
    · exact mem_strip (contains_iff_mem'.mp hneg.2)

/-- C5 (amended): every string accepted by `is_number` that contains at
least one digit parses successfully, with a negative result only when
both parentheses are present (sign round-trip); all-separator strings
such as `","` are accepted by `is_number` yet fail to parse.  The
concrete examples hold: `"(48.843)"` parses to `-48.843`, `"1,754,801"`
to `1754801`, and the empty and all-blank strings fail. -/
theorem C5_parse_roundtrip :
    (∀ s : Str, is_number s = true → (∃ c ∈ s, isDigitChar c = true) →
      ∃ v, parse_number s = some v ∧ (0 ≤ v ∨ ('(' ∈ s ∧ ')' ∈ s))) ∧
    parse_number (strOf "(48.843)") = some (-48.843) ∧
    parse_number (strOf "1,754,801") = some 1754801 ∧
    parse_number (strOf "") = none ∧
    parse_number (strOf "  ") = none := by
  refine ⟨fun s hn hd => parse_of_is_number hn hd, ?_, by decide, by decide,
    by decide⟩
  have h1 : parse_number (strOf "(48.843)") = some (-(Rat.divInt 48843 1000)) := by
    decide
  rw [h1]
  congr 1
  rw [Rat.divInt_eq_div]
  norm_num

theorem C5_parse_roundtrip_witness :
    ∃ v, parse_number (strOf "(48.843)") = some v ∧
      (0 ≤ v ∨ ('(' ∈ strOf "(48.843)" ∧ ')' ∈ strOf "(48.843)")) :=
  C5_parse_roundtrip.1 (strOf "(48.843)") (by decide) (by decide)

/-- C10 (amended): `parse_number` negates its parsed value exactly when
the input contains both `'('` and `')'` (first conjunct, stated on the
cleaned text's parse); for an `is_number`-accepted input containing at
least one digit and exactly one of the two parenthesis characters, the
parenthesis is stripped, no negation is applied, and the returned value
is nonnegative (second conjunct). -/
theorem C10_paren_negation :
    (∀ (s : Str) (v : ℚ), parse_number s = some v →
       (('(' ∈ strip s ∧ ')' ∈ strip s) →
          pyFloat (pn_cleaned (strip s)) = some (-v)) ∧
       (¬ ('(' ∈ strip s ∧ ')' ∈ strip s) →
          pyFloat (pn_cleaned (strip s)) = some v)) ∧
    (∀ s : Str, is_number s = true → (∃ c ∈ s, isDigitChar c = true) →
       (('(' ∈ s ∧ ¬ ')' ∈ s) ∨ (¬ '(' ∈ s ∧ ')' ∈ s)) →
       ∃ v, parse_number s = some v ∧ 0 ≤ v) := by
  constructor
  · intro s v h
    simp only [parse_number] at h
    split at h
    · cases h
    · cases hv0 : pyFloat (pn_cleaned (strip s)) with
      | none => rw [hv0] at h; cases h
      | some v0 =>
        rw [hv0] at h
        dsimp only at h
        constructor
        · intro hmem
          have hneg : ((strip s).contains '(' && (strip s).contains ')') = true := by
            rw [Bool.and_eq_true]
            exact ⟨contains_iff_mem'.mpr hmem.1, contains_iff_mem'.mpr hmem.2⟩
          rw [hneg, if_pos rfl] at h
          have hv : v = -v0 := (Option.some.inj h).symm
          rw [hv, neg_neg]
        · intro hmem
          have hneg : ((strip s).contains '(' && (strip s).contains ')') = false := by
            cases hb : ((strip s).contains '(' && (strip s).contains ')') with
            | false => rfl
            | true =>
              rw [Bool.and_eq_true] at hb
              exact absurd ⟨contains_iff_mem'.mp hb.1, contains_iff_mem'.mp hb.2⟩ hmem
          rw [hneg, if_neg (by decide)] at h
          have hv : v = v0 := (Option.some.inj h).symm
          rw [hv]
  · intro s hn hd hone
    obtain ⟨v, hv, hsign⟩ := parse_of_is_number hn hd
    refine ⟨v, hv, ?_⟩
    rcases hsign with h | h
    · exact h
    · rcases hone with ⟨_, hno⟩ | ⟨hno, _⟩
      · exact absurd h.2 hno
      · exact absurd h.1 hno

theorem C10_paren_negation_witness :
    ∃ v, parse_number (strOf "(123") = some v ∧ 0 ≤ v :=
  C10_paren_negation.2 (strOf "(123") (by decide) (by decide) (by decide)

/-! ## Soundness of the match scanner (claim C6) -/

theorem findAllF_sound {α : Type} {mh : Str → Option (ℕ × α)} :
    ∀ {fuel : ℕ} {u : Str} {i st en : ℕ} {a : α},
      (st, en, a) ∈ findAllF mh fuel u i →
      i ≤ st ∧ st < en ∧ mh (u.drop (st - i)) = some (en - st, a) := by
  intro fuel
  induction fuel with
  | zero =>
    intro u i st en a h
    cases u <;> simp [findAllF] at h
  | succ fuel ih =>
    intro u i st en a h
    cases u with
    | nil => simp [findAllF] at h
    | cons c t =>
      simp only [findAllF] at h
      cases hm : mh (c :: t) with
      | none =>
        rw [hm] at h
        obtain ⟨h1, h2, h3⟩ := ih h
        refine ⟨by omega, h2, ?_⟩
        have hst : st - i = (st - (i + 1)) + 1 := by omega
        rw [hst, List.drop_succ_cons]
        exact h3
      | some p =>
        obtain ⟨len, a0⟩ := p
        rw [hm] at h
        dsimp only at h
        by_cases hl : len = 0
        · rw [if_pos hl] at h
          obtain ⟨h1, h2, h3⟩ := ih h
          refine ⟨by omega, h2, ?_⟩
          have hst : st - i = (st - (i + 1)) + 1 := by omega
          rw [hst, List.drop_succ_cons]
          exact h3
        · rw [if_neg hl] at h
          rcases List.mem_cons.mp h with hEq | hmem
          · have he1 : st = i := congrArg (fun p => p.1) hEq
            have he2 : en = i + len := congrArg (fun p => p.2.1) hEq
            have he3 : a = a0 := congrArg (fun p => p.2.2) hEq
            rw [he1, he2, he3]
            refine ⟨le_refl _, by omega, ?_⟩
            rw [Nat.sub_self, List.drop_zero]
            have h4 : i + len - i = len := by omega
            rw [h4]
            exact hm
          · obtain ⟨h1, h2, h3⟩ := ih hmem
            refine ⟨by omega, h2, ?_⟩
            rw [List.drop_drop] at h3
            have hst : st - i = len + (st - (i + len)) := by omega
            rw [hst]
            exact h3

theorem altMatchCont_spec {cont : Str → Bool} {s cap rest : Str}
    (h : altMatchCont cont s = some (cap, rest)) :
    ∃ e ∈ MULT_FORMS, (s.take e.1.length).map Char.toLower = e.1 ∧
      cap = s.take e.1.length ∧ rest = s.drop e.1.length := by
  unfold altMatchCont at h
  obtain ⟨e, hemem, hee⟩ := List.exists_of_findSome?_eq_some h
  refine ⟨e, hemem, ?_⟩
  cases hct : ciTake e.1 s with
  | none => rw [hct] at hee; cases hee
  | some rest0 =>
    rw [hct] at hee
    dsimp only at hee
    split at hee
    · have h12 := Option.some.inj hee
      have h1 : cap = s.take e.1.length := (congrArg (fun p => p.1) h12).symm
      have h2 : rest = rest0 := (congrArg (fun p => p.2) h12).symm
      unfold ciTake at hct
      split at hct
      · rename_i hpref
        have hdrop : rest0 = s.drop e.1.length := (Option.some.inj hct).symm
        exact ⟨hpref, h1, h2.trans hdrop⟩
      · cases hct
    · cases hee

theorem mult_forms_no_dollar : ∀ e ∈ MULT_FORMS, ∀ c ∈ e.1, ¬ c = '$' := by
  decide


theorem fracSplit_append (r2 : Str) : (fracSplit r2).1 ++ (fracSplit r2).2 = r2 := by
  unfold fracSplit
  cases r2 with
  | nil => rfl
  | cons c u =>
    dsimp only
    by_cases hc : c = '.'
    · rw [if_pos hc]
      subst hc
      rw [List.cons_append, List.takeWhile_append_dropWhile]
    · rw [if_neg hc]
      rfl

theorem fracSplit_chars (r2 : Str) :
    ∀ c ∈ (fracSplit r2).1, c = '.' ∨ isDigitChar c = true := by
  unfold fracSplit
  cases r2 with
  | nil => intro c hc; cases hc
  | cons a u =>
    dsimp only
    by_cases hc : a = '.'
    · rw [if_pos hc]
      intro c hcm
      rcases List.mem_cons.mp hcm with hq | hq
      · exact Or.inl hq
      · exact Or.inr (List.mem_takeWhile_imp hq)
    · rw [if_neg hc]
      intro c hcm
      cases hcm

theorem dollarMatchHere_head {s : Str} {len : ℕ} {g : Str × Str}
    (h : dollarMatchHere s = some (len, g)) : s[0]? = some '$' := by
  unfold dollarMatchHere at h
  split at h
  · rename_i r heq
    simp
  · cases h

theorem bareMatchHere_span {s : Str} {len : ℕ} {g : Str × Str}
    (h : bareMatchHere s = some (len, g)) :
    ∀ j, j < len → ∀ c, s[j]? = some c → ¬ c = '$' := by
  simp only [bareMatchHere] at h
  split at h
  · cases h
  · rename_i hd1
    split at h
    · cases h
    · rename_i hsp
      cases hac : altMatchCont wordBoundaryCont
          ((fracSplit (s.dropWhile isDigComma)).2.dropWhile isSpaceChar) with
      | none => rw [hac] at h; cases h
      | some p =>
        obtain ⟨cap, rest⟩ := p
        rw [hac] at h
        dsimp only at h
        have hlen : len = s.length - rest.length :=
          (congrArg (fun x => x.1) (Option.some.inj h)).symm
        obtain ⟨e, hemem, hpref, hcape, hreste⟩ := altMatchCont_spec hac
        have h1 : (fracSplit (s.dropWhile isDigComma)).1 ++
            (fracSplit (s.dropWhile isDigComma)).2 = s.dropWhile isDigComma :=
          fracSplit_append _
        have h2 : (fracSplit (s.dropWhile isDigComma)).2 =
            (fracSplit (s.dropWhile isDigComma)).2.takeWhile isSpaceChar ++
            (fracSplit (s.dropWhile isDigComma)).2.dropWhile isSpaceChar :=
          (List.takeWhile_append_dropWhile _ _).symm
        have h3 : (fracSplit (s.dropWhile isDigComma)).2.dropWhile isSpaceChar =
            ((fracSplit (s.dropWhile isDigComma)).2.dropWhile isSpaceChar).take
              e.1.length ++
            ((fracSplit (s.dropWhile isDigComma)).2.dropWhile isSpaceChar).drop
              e.1.length :=
          (List.take_append_drop _ _).symm
        have hs : s = (s.takeWhile isDigComma ++
            ((fracSplit (s.dropWhile isDigComma)).1 ++
              ((fracSplit (s.dropWhile isDigComma)).2.takeWhile isSpaceChar ++
                ((fracSplit (s.dropWhile isDigComma)).2.dropWhile isSpaceChar).take
                  e.1.length))) ++ rest := by
          conv_lhs => rw [← List.takeWhile_append_dropWhile (p := isDigComma) (l := s)]
          conv_lhs => rw [← h1]
          conv_lhs => rw [h2]
          conv_lhs => rw [h3]
          rw [hreste]
          simp only [List.append_assoc]
        intro j hj c hcj hceq
        subst hceq
        have hlen2 : len = (s.takeWhile isDigComma ++
            ((fracSplit (s.dropWhile isDigComma)).1 ++
              ((fracSplit (s.dropWhile isDigComma)).2.takeWhile isSpaceChar ++
                ((fracSplit (s.dropWhile isDigComma)).2.dropWhile isSpaceChar).take
                  e.1.length))).length := by
          rw [hlen]
          conv_lhs => rw [hs]
          rw [List.length_append]
          omega
        have hctake : s.take len = s.takeWhile isDigComma ++
            ((fracSplit (s.dropWhile isDigComma)).1 ++
              ((fracSplit (s.dropWhile isDigComma)).2.takeWhile isSpaceChar ++
                ((fracSplit (s.dropWhile isDigComma)).2.dropWhile isSpaceChar).take
                  e.1.length)) := by
          conv_lhs => rw [hs, hlen2]
          exact List.take_left _ _
        have hjt : (s.take len)[j]? = some '$' := by
          rw [List.getElem?_take, if_pos hj]
          exact hcj
        have hcmem := List.getElem?_mem (hctake ▸ hjt)
        simp only [List.mem_append] at hcmem
        rcases hcmem with hm | hm | hm | hm
        · exact absurd (List.mem_takeWhile_imp hm) (by decide)
        · rcases fracSplit_chars _ '$' hm with hq | hq
          · exact absurd hq (by decide)
          · exact absurd hq (by decide)
        · exact absurd (List.mem_takeWhile_imp hm) (by decide)
        · have hmap : Char.toLower '$' ∈
              (((fracSplit (s.dropWhile isDigComma)).2.dropWhile isSpaceChar).take
                e.1.length).map Char.toLower := List.mem_map_of_mem _ hm
          rw [hpref] at hmap
          have hdollar : Char.toLower '$' = '$' := by decide
          rw [hdollar] at hmap
          exact mult_forms_no_dollar e hemem '$' hmap rfl

theorem dollarLoop_spans {text : Str} :
    ∀ {ms : List (ℕ × ℕ × Str × Str)} {recs : List ExtractedNumber}
      {spans : List (ℕ × ℕ)},
      dollarLoop text ms = some (recs, spans) →
      ∀ sp ∈ spans, ∃ g, (sp.1, sp.2, g) ∈ ms := by
  intro ms
  induction ms with
  | nil =>
    intro recs spans h sp hsp
    simp only [dollarLoop] at h
    cases h
    simp at hsp
  | cons m ms ih =>
    intro recs spans h sp hsp
    obtain ⟨st, en, g1, g2⟩ := m
    simp only [dollarLoop] at h
    cases hres : resolve_multiplier g2 with
    | none =>
      rw [hres] at h
      obtain ⟨g, hg⟩ := ih h sp hsp
      exact ⟨g, List.mem_cons_of_mem _ hg⟩
    | some lf =>
      obtain ⟨label, factor⟩ := lf
      rw [hres] at h
      cases hval : pyFloat (g1.filter (fun c => !(c = ','))) with
      | none => rw [hval] at h; cases h
      | some value =>
        rw [hval] at h
        cases hrec : dollarLoop text ms with
        | none => rw [hrec] at h; cases h
        | some p =>
          obtain ⟨recs0, spans0⟩ := p
          rw [hrec] at h
          cases h
          rcases List.mem_cons.mp hsp with hEq | hmem
          · subst hEq
            exact ⟨(g1, g2), List.mem_cons_self _ _⟩
          · obtain ⟨g, hg⟩ := ih hrec sp hmem
            exact ⟨g, List.mem_cons_of_mem _ hg⟩

/-- C6: `extract_inline_numbers` never counts the same span twice.  For
every input text, any bare-pattern match that passes the second loop's
skip test (so that a record could be emitted for it) has a span disjoint
from every span recorded by the dollar loop: the skip test catches a
bare match starting inside a dollar span, a bare match starting before a
dollar span cannot reach into it because the dollar match starts with a
`'$'` character and a bare match's span contains none.  In particular
`extract_inline_numbers "$9.6 billion"` yields exactly one record, not
two. -/
theorem C6_no_double_counting :
    (∀ (text : Str) (recs : List ExtractedNumber) (spans : List (ℕ × ℕ))
       (bm : ℕ × ℕ × Str × Str) (dm : ℕ × ℕ),
       dollarLoop text (findAll dollarMatchHere text) = some (recs, spans) →
       bm ∈ findAll bareMatchHere text →
       spans.any (fun sp => decide (sp.1 ≤ bm.1) && decide (bm.1 < sp.2)) = false →
       dm ∈ spans →
       ¬ (bm.1 < dm.2 ∧ dm.1 < bm.2.1)) ∧
    (extract_inline_numbers (strOf "$9.6 billion")).map List.length = some 1 := by
  constructor
  · intro text recs spans bm dm hdl hbm hany hdm
    obtain ⟨bst, ben, bg⟩ := bm
    obtain ⟨dst, dend⟩ := dm
    dsimp only at hany ⊢
    rintro ⟨hov1, hov2⟩
    obtain ⟨g, hgmem⟩ := dollarLoop_spans hdl (dst, dend) hdm
    have hgmem' : (dst, dend, g) ∈ findAllF dollarMatchHere text.length text 0 := hgmem
    obtain ⟨-, hdlt, hdmatch⟩ := findAllF_sound hgmem'
    have hdhead : (text.drop dst)[0]? = some '$' :=
      dollarMatchHere_head (by simpa using hdmatch)
    have hbm' : (bst, ben, bg) ∈ findAllF bareMatchHere text.length text 0 := hbm
    obtain ⟨-, hblt, hbmatch⟩ := findAllF_sound hbm'
    have hspan := bareMatchHere_span (by simpa using hbmatch)
    have hnd : ¬ (dst ≤ bst ∧ bst < dend) := by
      intro hcontra
      have hfa := List.any_eq_false.mp hany (dst, dend) hdm
      simp only [Bool.and_eq_true, decide_eq_true_eq] at hfa
      exact hfa ⟨hcontra.1, hcontra.2⟩
    rcases Nat.lt_or_ge bst dst with hcase | hcase
    · have hj : dst - bst < ben - bst := by omega
      have hc : (text.drop bst)[dst - bst]? = some '$' := by
        rw [List.getElem?_drop]
        rw [List.getElem?_drop] at hdhead
        have he : bst + (dst - bst) = dst + 0 := by omega
        rw [he]
        exact hdhead
      exact (hspan (dst - bst) hj '$' hc) rfl
    · exact hnd ⟨hcase, hov1⟩
  · decide

theorem C6_no_double_counting_witness :
    ¬ ((17 : ℕ) < 12 ∧ (0 : ℕ) < 28) :=
  C6_no_double_counting.1 (strOf "$9.6 billion and 2.0 million")
    [make_result (Rat.divInt 96 10) (strOf "$9.6 billion") (some (strOf "Billion"))
        1000000000 (strOf "inline") (strOf "narrative") .narrative none none none
        (some (strOf "$9.6 billion and 2.0 million"))]
    [(0, 12)] (17, 28, (strOf "2.0", strOf "million")) (0, 12)
    (by decide) (by decide) (by decide) (by decide)
